import Mathlib

/-!
# Verification of the VAEditor turbo-gherkin provider

Shallow embedding of `src/languages/turbo-gherkin/provider.ts`
(class `VanessaGherkinProvider`) and proofs about its behaviour.

JavaScript strings are modelled by `String`, JS string lowercasing by
`jsToLower` (ASCII and Cyrillic ranges, the alphabets the provider's
regular expressions handle), JS `\s` by `jsWS`, and the character class
`[A-zА-яЁё]` used throughout the provider by `vaLetter`.  JSON payloads
are modelled by their parse results (`Option`/lists); a `none` payload
models an unparsable JSON string.  The external `KeywordMatcher`
(file `matcher.ts`, not part of the sources) is modelled by predicate
parameters (`isSection`, `stepMatch`, …), and the external
`jaro-winkler` similarity by a rational-valued function parameter.
-/

namespace VAEditor

/-- JS `\s` (whitespace class) on the characters relevant here. -/
def jsWS (c : Char) : Bool :=
  c = ' ' || c = '\t' || c = '\n' || c = '\r' ||
  c = Char.ofNat 0x0b || c = Char.ofNat 0x0c || c = Char.ofNat 0xa0 ||
  c = Char.ofNat 0x1680 || (0x2000 ≤ c.toNat && c.toNat ≤ 0x200a) ||
  c = Char.ofNat 0x2028 || c = Char.ofNat 0x2029 || c = Char.ofNat 0x202f ||
  c = Char.ofNat 0x205f || c = Char.ofNat 0x3000 || c = Char.ofNat 0xfeff

/-- The provider's letter class `[A-zА-яЁё]` (JS `A-z` is the code range
65–122, which also contains `[ \ ] ^ _ `  — faithful to the source). -/
def vaLetter (c : Char) : Bool :=
  (65 ≤ c.toNat && c.toNat ≤ 122) ||
  (1040 ≤ c.toNat && c.toNat ≤ 1103) || c.toNat = 1025 || c.toNat = 1105

/-- The identifier-tail class `[0-9A-zА-яЁё]` of the provider's regexes. -/
def vaIdChar (c : Char) : Bool :=
  ('0' ≤ c && c ≤ '9') || vaLetter c

/-- JS `String.prototype.toLowerCase` on one character, for the ASCII and
Cyrillic ranges the provider works with. -/
def jsLowerChar (c : Char) : Char :=
  if 65 ≤ c.toNat ∧ c.toNat ≤ 90 then Char.ofNat (c.toNat + 32)
  else if 1040 ≤ c.toNat ∧ c.toNat ≤ 1071 then Char.ofNat (c.toNat + 32)
  else if c.toNat = 1025 then Char.ofNat 1105
  else c

/-- JS `toLowerCase` on a string. -/
def jsToLower (s : String) : String := ⟨s.data.map jsLowerChar⟩

/-- JS `String.prototype.toUpperCase` on one character (used by the
completion provider to capitalize the keyword). -/
def jsUpperChar (c : Char) : Char :=
  if 97 ≤ c.toNat ∧ c.toNat ≤ 122 then Char.ofNat (c.toNat - 32)
  else if 1072 ≤ c.toNat ∧ c.toNat ≤ 1103 then Char.ofNat (c.toNat - 32)
  else if c.toNat = 1105 then Char.ofNat 1025
  else c

/-- JS `"…".split(sep)` for a one-character separator, on character
lists (structural, so that the kernel can evaluate it). -/
def jsSplitChar (sep : Char) : List Char → List (List Char)
  | [] => [[]]
  | c :: rest =>
    if c = sep then [] :: jsSplitChar sep rest
    else
      match jsSplitChar sep rest with
      | p :: ps => (c :: p) :: ps
      | [] => [[c]]

/-- JS `"…".split(" ")` on character lists: split at every single space. -/
def jsSplitSpace : List Char → List (List Char)
  | [] => [[]]
  | c :: rest =>
    if c = ' ' then [] :: jsSplitSpace rest
    else
      match jsSplitSpace rest with
      | p :: ps => (c :: p) :: ps
      | [] => [[c]]

/-! ## Keywords: `setKeywords` and `findKeyword`

Source (provider.ts):

    findKeyword(words) {
      if (words.length == 0) return undefined;
      let result = undefined;
      this.keywords.forEach(item => {
        if (!result && item.every((w, i) => words[i] && w == words[i].toLowerCase())) result = item;
      });
      return result;
    }

    setKeywords = (arg) => {
      this.clearArray(this.keywords);
      let list = JSON.parse(arg).map(w => w.toLowerCase());
      list.forEach(w => this.keywords.push(w.split(" ")));
      this._keywords = this.keywords.sort((a, b) => b.length - a.length);
      this.initTokenizer();
    }
-/

/-- Source `item.every((w, i) => words[i] && w == words[i].toLowerCase())`:
the registered keyword `item` matches the head of `words`.  A token
beyond the end of `words` is `undefined` and the empty string is falsy,
so both fail the `words[i] &&` test. -/
def kwEvery : List String → List String → Bool
  | [], _ => true
  | _ :: _, [] => false
  | k :: ks, w :: ws => (w ≠ "") && (k == jsToLower w) && kwEvery ks ws

/-- Source `findKeyword` over an explicit keyword list (the `this.keywords`
state): first registered keyword whose words match positionally. -/
def findKeyword (keywords : List (List String)) (words : List String) :
    Option (List String) :=
  if words.length = 0 then none
  else keywords.find? (fun item => kwEvery item words)

/-- Descending-length insertion used to model
`keywords.sort((a, b) => b.length - a.length)`. -/
def insertByLenDesc (k : List String) : List (List String) → List (List String)
  | [] => [k]
  | x :: xs => if k.length ≤ x.length then x :: insertByLenDesc k xs else k :: x :: xs

/-- Sort a keyword list by descending word count. -/
def sortByLenDesc (l : List (List String)) : List (List String) :=
  l.foldr insertByLenDesc []

/-- The keyword list produced by a successful `setKeywords` call:
every phrase is lowercased, split at spaces, then the whole list is
sorted by descending word count. -/
def setKeywordsPure (phrases : List String) : List (List String) :=
  sortByLenDesc ((phrases.map jsToLower).map
    (fun w => (jsSplitSpace w.data).map (fun p => String.mk p)))

/-- The specification's notion from the claim: a registered keyword is a
case-insensitive positional prefix of the token sequence. -/
def casePrefixB : List String → List String → Bool
  | [], _ => true
  | _ :: _, [] => false
  | k :: ks, w :: ws => (jsToLower k == jsToLower w) && casePrefixB ks ws

/-- Lists sorted by non-increasing length. -/
def LenSorted (l : List (List String)) : Prop :=
  l.Pairwise (fun a b => b.length ≤ a.length)

/-! ## `splitWords`, `filterWords` and `key`

Source:

    splitWords(line) {
      let regexp = /"[^"\\]*(?:\\.[^"\\]*)*"|'[^'\\]*(?:\\.[^'\\]*)*'|<[^>]*>|[A-zА-яЁё]+|[^A-zА-яЁё\s]+/g;
      return line.match(regexp) || [];
    }

The five alternatives are tried in order at each position; a position
where no alternative matches is skipped.  Each alternative is compiled
to a hand-written scanner below.
-/

/-- Scanner for the tail of `"[^"\\]*(?:\\.[^"\\]*)*"` after the opening
double quote: returns the matched characters (closing quote included)
and the rest, or `none` when there is no closing quote.  JS `.` does not
match line terminators, so an escape cannot swallow a newline. -/
def dqTail : List Char → Option (List Char × List Char)
  | [] => none
  | '"' :: rest => some (['"'], rest)
  | '\\' :: c :: rest =>
    if c = '\n' ∨ c = '\r' then none
    else (dqTail rest).map (fun (m, r) => ('\\' :: c :: m, r))
  | ['\\'] => none
  | c :: rest => (dqTail rest).map (fun (m, r) => (c :: m, r))

/-- Scanner for the tail of `'[^'\\]*(?:\\.[^'\\]*)*'` after the opening
single quote. -/
def sqTail : List Char → Option (List Char × List Char)
  | [] => none
  | '\'' :: rest => some (['\''], rest)
  | '\\' :: c :: rest =>
    if c = '\n' ∨ c = '\r' then none
    else (sqTail rest).map (fun (m, r) => ('\\' :: c :: m, r))
  | ['\\'] => none
  | c :: rest => (sqTail rest).map (fun (m, r) => (c :: m, r))

/-- Scanner for the tail of `<[^>]*>` after the opening angle bracket. -/
def angleTail : List Char → Option (List Char × List Char)
  | [] => none
  | '>' :: rest => some (['>'], rest)
  | c :: rest => (angleTail rest).map (fun (m, r) => (c :: m, r))

/-- Source `splitWords` with fuel (every step consumes at least one input
character, so `l.length` fuel is enough). -/
def splitWordsGo : Nat → List Char → List String
  | 0, _ => []
  | _ + 1, [] => []
  | fuel + 1, c :: rest =>
    if c = '"' then
      match dqTail rest with
      | some (m, r) => String.mk ('"' :: m) :: splitWordsGo fuel r
      | none =>
        let run := rest.takeWhile (fun c => !vaLetter c && !jsWS c)
        String.mk (c :: run) :: splitWordsGo fuel (rest.drop run.length)
    else if c = '\'' then
      match sqTail rest with
      | some (m, r) => String.mk ('\'' :: m) :: splitWordsGo fuel r
      | none =>
        let run := rest.takeWhile (fun c => !vaLetter c && !jsWS c)
        String.mk (c :: run) :: splitWordsGo fuel (rest.drop run.length)
    else if c = '<' then
      match angleTail rest with
      | some (m, r) => String.mk ('<' :: m) :: splitWordsGo fuel r
      | none =>
        let run := rest.takeWhile (fun c => !vaLetter c && !jsWS c)
        String.mk (c :: run) :: splitWordsGo fuel (rest.drop run.length)
    else if vaLetter c then
      let run := rest.takeWhile vaLetter
      String.mk (c :: run) :: splitWordsGo fuel (rest.drop run.length)
    else if jsWS c then splitWordsGo fuel rest
    else
      let run := rest.takeWhile (fun c => !vaLetter c && !jsWS c)
      String.mk (c :: run) :: splitWordsGo fuel (rest.drop run.length)

/-- The provider's `splitWords`. -/
def splitWords (line : String) : List String :=
  splitWordsGo line.data.length line.data

/-- Source `/^[\s]*[#|//]/.test(w)`: the word begins (after JS whitespace) with
`#`, `|` or `/` — the character class `[#|//]` contains exactly those
three characters. -/
def commentStart (w : String) : Bool :=
  match w.data.dropWhile jsWS with
  | c :: _ => c = '#' || c = '|' || c = '/'
  | [] => false

/-- Source `filterWords`: drop the keyword prefix found by `findKeyword`, then
keep words up to (excluding) the first comment-looking word. -/
def filterWords (keywords : List (List String)) (words : List String) :
    List String :=
  match findKeyword keywords words with
  | some k => (words.drop k.length).takeWhile (fun w => !commentStart w)
  | none => words.takeWhile (fun w => !commentStart w)

/-- Source `key`: keep only the all-letter words (`/^[A-zА-яЁё]+$/`),
lowercase them and join with single spaces. -/
def keyOf (words : List String) : String :=
  String.intercalate " "
    ((words.filter (fun w => !w.data.isEmpty && w.data.all vaLetter)).map jsToLower)

/-! ## Steps, keypairs and the syntax validator -/

/-- One entry of the `steps` dictionary (`this.steps[key]`).  `label`,
`keyword` and the rewritten `insertText` are filled by
`updateStepLabels`. -/
structure StepData where
  head : List String
  body : List String
  documentation : String
  insertText : String
  sortText : String
  sectionName : String
  kind : Nat
  label : String := ""
  keyword : String := ""
deriving DecidableEq

/-- The payload of one element of a `setStepList` argument. -/
structure StepPayload where
  insertText : String
  documentation : String := ""
  sortText : String := ""
  sectionName : String := ""
  kind : Nat := 0
deriving DecidableEq

/-- Association lists model JS string-keyed objects.  Lookup of the
first (unique) binding of a key. -/
def alookup {α : Type} (l : List (String × α)) (k : String) : Option α :=
  (l.find? (fun p => p.1 == k)).map (fun p => p.2)

/-- Assignment `obj[k] = v`: overwrite in place when the key exists,
append otherwise (JS object insertion order). -/
def aset {α : Type} (l : List (String × α)) (k : String) (v : α) :
    List (String × α) :=
  if l.any (fun p => p.1 == k) then
    l.map (fun p => if p.1 == k then (k, v) else p)
  else l ++ [(k, v)]

/-- The whole-token test `/^"[^"]*"$|^'[^']*'$|^<[^<]*>$/` used by
`updateStepLabels` and `replaceParams`: a word that is entirely one
quoted or angle-bracketed placeholder token. -/
def testParamToken (w : String) : Bool :=
  match w.data with
  | '"' :: rest =>
    !rest.isEmpty && (rest.dropLast.all (fun c => !(c == '"'))) &&
      rest.getLast? == some '"'
  | '\'' :: rest =>
    !rest.isEmpty && (rest.dropLast.all (fun c => !(c == '\''))) &&
      rest.getLast? == some '\''
  | '<' :: rest =>
    !rest.isEmpty && (rest.dropLast.all (fun c => !(c == '<'))) &&
      rest.getLast? == some '>'
  | _ => false

/-- The element substitution of `updateStepLabels`: a head word that is
a whole `"…"`, `'…'` or `<…>` token whose inner text names an element is
replaced by the element text, keeping the outer characters. -/
def substElement (elements : List (String × String)) (word : String) : String :=
  let d := word.data
  if testParamToken word then
    let name := jsToLower (String.mk (d.drop 1).dropLast)
    match alookup elements name with
    | some elem =>
      String.mk [d.headD ' '] ++ elem ++ String.mk [d.getLastD ' ']
    | none => word
  else word

/-- Source `updateStepLabels` on one step entry: the label is the head with
the keyword prefix removed (filter on `i < keyword.length`), the
`keyword` field is that prefix, and `insertText` is rebuilt from the
label and the body. -/
def updateStepLabel (keywords : List (List String))
    (elements : List (String × String)) (e : StepData) : StepData :=
  let words := e.head.map (substElement elements)
  let keyword := findKeyword keywords words
  let klen := match keyword with | some k => k.length | none => 0
  let label := String.intercalate " " (words.drop klen)
  let kwText := String.intercalate " " (words.take klen)
  { e with
    label := label
    keyword := kwText
    insertText := label ++
      (if e.body.isEmpty then "" else "\n" ++ String.intercalate "\n" e.body) }

/-- Source `setStepList` (parse already succeeded): register every step under
its normalized key, then update labels. -/
def setStepList (keywords : List (List String))
    (elements : List (String × String)) (prior : List (String × StepData))
    (payload : List StepPayload) (clear : Bool) : List (String × StepData) :=
  let base := if clear then [] else prior
  let filled := payload.foldl (fun acc e =>
    let lines := (jsSplitChar '\n' e.insertText.data).map (fun p => String.mk p)
    let text := lines.headD ""
    let body := lines.tail
    let head := splitWords text
    let words := filterWords keywords head
    let key := keyOf words
    aset acc key {
      head := head
      body := body
      documentation := e.documentation
      insertText := e.insertText
      sortText := e.sortText
      sectionName := e.sectionName
      kind := e.kind }) base
  filled.map (fun p => (p.1, updateStepLabel keywords elements p.2))

/-- Source `setKeypairs` (parse already succeeded): keys and member words
lowercased. -/
def setKeypairs (pairs : List (String × List String)) :
    List (String × List String) :=
  pairs.foldl (fun acc p => aset acc (jsToLower p.1) (p.2.map jsToLower)) []

/-- Source `lineSyntaxError`.  The step-line pattern `matcher.reg.step` comes
from the absent `matcher.ts` and is therefore a parameter. -/
def lineSyntaxError (stepMatch : String → Bool)
    (keywords : List (List String)) (steps : List (String × StepData))
    (keypairs : List (String × List String)) (line : String) : Bool :=
  if !stepMatch line then false
  else
    let words := splitWords line
    match findKeyword keywords words with
    | none => false
    | some keyword =>
      let words := (words.drop keyword.length).takeWhile (fun w => !commentStart w)
      let key := keyOf words
      if key = "" then false
      else if (alookup steps key).isSome then false
      else
        match alookup keypairs (String.intercalate " " keyword) with
        | none => true
        | some keypair =>
          let lastword := jsToLower (words.getLastD "")
          let step := words.dropLast
          !((alookup steps (keyOf step)).isSome &&
            keypair.any (fun w => w == lastword))

/-- Source `/^\s*""".*$/.test(line)`. -/
def isMultilineDelim (line : String) : Bool :=
  ['"', '"', '"'].isPrefixOf (line.data.dropWhile jsWS)

/-- Source `/^\s*(#|@|\/\/)/.test(line)` — note this one (unlike the
`[#|//]` class) requires a genuine double slash. -/
def isCommentOrInstruction (line : String) : Bool :=
  match line.data.dropWhile jsWS with
  | '#' :: _ => true
  | '@' :: _ => true
  | '/' :: '/' :: _ => true
  | _ => false

/-- The loop body of `checkSyntax`: scan the remaining lines carrying
the line number, the multiline-string flag and the current section. -/
def checkSyntaxGo (stepMatch isSection : String → Bool)
    (getSection : String → String) (keywords : List (List String))
    (steps : List (String × StepData))
    (keypairs : List (String × List String)) (n : Nat) (multiline : Bool)
    (sec : String) : List String → List Nat
  | [] => []
  | line :: rest =>
    if isMultilineDelim line then
      checkSyntaxGo stepMatch isSection getSection keywords steps keypairs
        (n + 1) (!multiline) sec rest
    else if multiline then
      checkSyntaxGo stepMatch isSection getSection keywords steps keypairs
        (n + 1) multiline sec rest
    else if isCommentOrInstruction line then
      checkSyntaxGo stepMatch isSection getSection keywords steps keypairs
        (n + 1) multiline sec rest
    else if isSection line then
      checkSyntaxGo stepMatch isSection getSection keywords steps keypairs
        (n + 1) multiline (getSection line) rest
    else if sec = "feature" then
      checkSyntaxGo stepMatch isSection getSection keywords steps keypairs
        (n + 1) multiline sec rest
    else if lineSyntaxError stepMatch keywords steps keypairs line then
      n :: checkSyntaxGo stepMatch isSection getSection keywords steps keypairs
        (n + 1) multiline sec rest
    else
      checkSyntaxGo stepMatch isSection getSection keywords steps keypairs
        (n + 1) multiline sec rest

/-- The line numbers flagged by the `checkSyntax` scan (1-based).  The
section patterns of the absent `matcher.ts` are parameters. -/
def checkSyntaxProblems (stepMatch isSection : String → Bool)
    (getSection : String → String) (keywords : List (List String))
    (steps : List (String × StepData))
    (keypairs : List (String × List String)) (doc : List String) :
    List Nat :=
  checkSyntaxGo stepMatch isSection getSection keywords steps keypairs
    1 false "" doc

/-- The stores of Scenario C: keyword `click`, the step registered via
`setStepList` with head text `click button` (stored under the
keyword-stripped key `button`), and `keypairs["click"] = ["twice"]`. -/
def clickKeywords : List (List String) := setKeywordsPure ["click"]

/-- Scenario C step dictionary. -/
def clickSteps : List (String × StepData) :=
  setStepList clickKeywords [] [] [{ insertText := "click button" }] false

/-- Scenario C keypair map. -/
def clickKeypairs : List (String × List String) :=
  setKeypairs [("click", ["twice"])]

/-! ## The line classifier `getToken` (C7)

Source:

    getToken(text) {
      if (/^\s*$/.test(text)) return VAToken.Empty;
      if (/^[\s]*@/.test(text)) return VAToken.Instruction;
      if (/^[\s]*\|/.test(text)) return VAToken.Parameter;
      if (/^[\s]*[#|//]/.test(text)) return VAToken.Comment;
      if (/^[\s]*"""/.test(text)) return VAToken.Multiline;
      return VAToken.Operator;
    }
-/

/-- The token alphabet of the provider (`enum VAToken`). -/
inductive VAToken where
  | Empty
  | Section
  | Operator
  | Comment
  | Multiline
  | Instruction
  | Parameter
deriving DecidableEq

/-- The leading non-whitespace suffix of a line (what the `^[\s]*`
prefixes of the classifier regexes skip). -/
def leadChars (text : String) : List Char :=
  text.data.dropWhile jsWS

/-- Source `getToken`.  The comment test is the character class `[#|//]`,
which contains exactly `#`, `|` and `/`. -/
def getToken (text : String) : VAToken :=
  let lead := leadChars text
  if lead.isEmpty then .Empty
  else if ['@'].isPrefixOf lead then .Instruction
  else if ['|'].isPrefixOf lead then .Parameter
  else if (['#'].isPrefixOf lead || ['|'].isPrefixOf lead ||
      ['/'].isPrefixOf lead) then .Comment
  else if ['"', '"', '"'].isPrefixOf lead then .Multiline
  else .Operator

/-- The classifier exactly as the claim words it: Comment exactly when
the leading non-whitespace text begins with `#` or `//`. -/
def claimClassify (text : String) : VAToken :=
  let lead := leadChars text
  if lead.isEmpty then .Empty
  else if ['@'].isPrefixOf lead then .Instruction
  else if ['|'].isPrefixOf lead then .Parameter
  else if (['#'].isPrefixOf lead || ['/', '/'].isPrefixOf lead) then .Comment
  else if ['"', '"', '"'].isPrefixOf lead then .Multiline
  else .Operator

/-- The classifier as amended: a single leading `/` already makes a
Comment (the class `[#|//]` lists `/` twice but a class needs only one
occurrence). -/
def amendedClassify (text : String) : VAToken :=
  let lead := leadChars text
  if lead.isEmpty then .Empty
  else if ['@'].isPrefixOf lead then .Instruction
  else if ['|'].isPrefixOf lead then .Parameter
  else if (['#'].isPrefixOf lead || ['/'].isPrefixOf lead) then .Comment
  else if ['"', '"', '"'].isPrefixOf lead then .Multiline
  else .Operator

/-! ## `checkSyntax` as a model transformation (C9) -/

/-- The part of a `monaco.editor.ITextModel` the provider reads and
writes: the language id (`getModeId()`), the line contents, and the
model's `"syntax"`-owner marker set (`setModelMarkers` replaces it). -/
structure TextModel where
  modeId : String
  lines : List String
  syntaxMarkers : List Nat
deriving DecidableEq

/-- Source `checkSyntax(model)`: returns immediately unless the language id is
`turbo-gherkin`; otherwise replaces the model's syntax markers with the
freshly computed problem list. -/
def checkSyntaxModel (stepMatch isSection : String → Bool)
    (getSection : String → String) (keywords : List (List String))
    (steps : List (String × StepData))
    (keypairs : List (String × List String)) (m : TextModel) : TextModel :=
  if m.modeId ≠ "turbo-gherkin" then m
  else { m with syntaxMarkers := (checkSyntaxProblems stepMatch isSection
    getSection keywords steps keypairs m.lines) }

/-! ## Code folding (C5)

Source: `getCodeFolding` — a classification pass producing
`{token, indent}` per line, then a per-line scan computing the end `k`
of the fold opened at line `i`.
-/

/-- One classified line (`interface VAIndent`). -/
structure VAIndent where
  token : VAToken
  indent : Nat
deriving DecidableEq

/-- Source `getIndent(text, tabSize)`: count the leading whitespace columns
(tabs advance to the next multiple of `tabSize`) and add one.  When the
line is all whitespace, `text.search(/[^\s]/)` is `-1` and the loop body
never runs, so the result is `1`. -/
def getIndent (tabSize : Nat) (text : String) : Nat :=
  if text.data.all jsWS then 1
  else
    (text.data.takeWhile jsWS).foldl
      (fun indent c =>
        if c = '\t' then indent + tabSize - indent % tabSize
        else indent + 1) 0 + 1

/-- The classification pass of `getCodeFolding`: tokens with the
multiline toggle applied, Operator lines re-tested against the section
pattern, and indentation attached to surviving Operator lines. -/
def classifyLines (isSection : String → Bool) (tabSize : Nat) :
    List String → Bool → List VAIndent
  | [], _ => []
  | text :: rest, multiline =>
    let t := getToken text
    if multiline then
      ⟨.Multiline, 0⟩ ::
        classifyLines isSection tabSize rest (!(t = VAToken.Multiline))
    else
      let entry : VAIndent :=
        if t = VAToken.Operator then
          if isSection text then ⟨.Section, 0⟩
          else ⟨.Operator, getIndent tabSize text⟩
        else ⟨t, 0⟩
      entry :: classifyLines isSection tabSize rest (t = VAToken.Multiline)

/-- The inner scan for an Instruction line: number of immediately
following Instruction lines. -/
def instrRun : List VAIndent → Nat
  | [] => 0
  | e :: rest => if e.token = VAToken.Instruction then instrRun rest + 1 else 0

/-- The inner scan for a Comment line. -/
def commentRun : List VAIndent → Nat
  | [] => 0
  | e :: rest => if e.token = VAToken.Comment then commentRun rest + 1 else 0

/-- The inner scan for a Section line: lines up to (excluding) the next
Section line. -/
def sectionRun : List VAIndent → Nat
  | [] => 0
  | e :: rest => if e.token = VAToken.Section then 0 else sectionRun rest + 1

/-- The inner scan for an Operator line of indent `d`: offset of the
last update of `k`.  Section breaks; Empty is transparent without
updating; Comment, Multiline and Parameter update and continue; other
tokens (Operator and Instruction, via the switch fall-through to the
indent test) break on `indent <= d` and update otherwise. -/
def opRun (d : Nat) : List VAIndent → Nat
  | [] => 0
  | e :: rest =>
    match e.token with
    | .Section => 0
    | .Empty => let r := opRun d rest; if r = 0 then 0 else r + 1
    | .Comment => opRun d rest + 1
    | .Multiline => opRun d rest + 1
    | .Parameter => opRun d rest + 1
    | _ => if e.indent ≤ d then 0 else opRun d rest + 1

/-- Source `monaco.languages.FoldingRangeKind` (the members the provider can
emit are Comment and Region; Imports exists in the enum but is never
used). -/
inductive FoldKind where
  | Comment
  | Imports
  | Region
deriving DecidableEq

/-- One produced folding range `{kind, start, end}`. -/
structure FoldRange where
  kind : Option FoldKind
  start : Nat
  stop : Nat
deriving DecidableEq

/-- The emission loop of `getCodeFolding`, with explicit fuel (each
step consumes at least one line, so the line count is enough fuel; the
fuel keeps the recursion structural so that the kernel can evaluate
it).  At line `i`, compute the end of the fold opened there and emit it
when it extends past `i`; after an Instruction or Comment block the
loop resumes past the block (`i = k` in the source). -/
def foldScan : Nat → Nat → List VAIndent → List FoldRange
  | 0, _, _ => []
  | _ + 1, _, [] => []
  | fuel + 1, i, e :: rest =>
    match e.token with
    | .Instruction =>
      let r := instrRun rest
      let tail := foldScan fuel (i + r + 1) (rest.drop r)
      if 0 < r then ⟨none, i, i + r⟩ :: tail else tail
    | .Comment =>
      let r := commentRun rest
      let tail := foldScan fuel (i + r + 1) (rest.drop r)
      if 0 < r then ⟨some .Comment, i, i + r⟩ :: tail else tail
    | .Section =>
      let r := sectionRun rest
      let tail := foldScan fuel (i + 1) rest
      if 0 < r then ⟨some .Region, i, i + r⟩ :: tail else tail
    | .Operator =>
      let r := opRun e.indent rest
      let tail := foldScan fuel (i + 1) rest
      if 0 < r then ⟨none, i, i + r⟩ :: tail else tail
    | _ => foldScan fuel (i + 1) rest

/-- Source `getCodeFolding` over a document given as its list of lines (the
`lineCount`/`getLineContent` accessor pair). -/
def getCodeFolding (isSection : String → Bool) (tabSize : Nat)
    (doc : List String) : List FoldRange :=
  let lines := classifyLines isSection tabSize doc false
  foldScan lines.length 1 lines

/-- Well-formedness of a classified line list: Operator lines carry an
indent of at least 1 (`getIndent` adds one), all other lines carry 0. -/
def WFIndent (l : List VAIndent) : Prop :=
  ∀ e ∈ l, (e.token = VAToken.Operator → 1 ≤ e.indent) ∧
    (e.token ≠ VAToken.Operator → e.indent = 0)

/-- Two ranges in emission order either are disjoint (the second starts
after the first stops) or nest (the second ends no later than the
first). -/
def RangeOrder (a b : FoldRange) : Prop :=
  a.start < b.start ∧ (a.stop < b.start ∨ b.stop ≤ a.stop)

/-! ## Setter error behaviour (C1)

`setKeywords` runs `this.clearArray(this.keywords)` *before*
`JSON.parse(arg)`; a parse exception therefore propagates after the
list is already emptied.  The other setters (`setKeypairs`,
`setMetatags`, `setErrorLinks`) parse first.  A `none` payload models a
JSON string `JSON.parse` throws on; the `Bool` in the result is whether
the call completed without throwing.
-/

/-- The mutable dictionaries of `VanessaGherkinProvider` that the C1
scenario touches. -/
structure VGStore where
  keywords : List (List String)
  steps : List (String × StepData)
  keypairs : List (String × List String)
deriving DecidableEq

/-- Source `setKeywords` with the source's statement order: clear the keyword
array, then parse (a throw leaves the cleared array behind), then
refill and sort. -/
def setKeywordsJS (st : VGStore) (payload : Option (List String)) :
    VGStore × Bool :=
  let cleared := { st with keywords := [] }
  match payload with
  | none => (cleared, false)
  | some phrases => ({ cleared with keywords := setKeywordsPure phrases }, true)

/-- Source `setStepList` as a store transition (parse happens after the
optional clear; with `clear = false` nothing precedes the parse). -/
def setStepListJS (st : VGStore) (payload : Option (List StepPayload))
    (clear : Bool) : VGStore × Bool :=
  let base := if clear then { st with steps := [] } else st
  match payload with
  | none => (base, false)
  | some list =>
    ({ base with steps := setStepList st.keywords [] base.steps list false },
      true)

/-! ## Variables, completion and hover (C8, C10) -/

/-- A configured variable: `{name: key, value: String(obj[key])}`. -/
structure VarItem where
  name : String
  value : String
deriving DecidableEq

/-- A parsed JSON scalar, as far as `String(...)` conversion needs it. -/
inductive JVal where
  | str (s : String)
  | num (n : Int)
  | bool (b : Bool)
  | null
deriving DecidableEq

/-- JS `String(v)` on a parsed scalar. -/
def jsString : JVal → String
  | .str s => s
  | .num n => toString n
  | .bool b => if b then "true" else "false"
  | .null => "null"

/-- Source `setVariables` (parse already succeeded): each payload entry is
stored under its lowercased key as `{name: key, value: String(value)}`,
merged into the prior store unless `clear` is set. -/
def setVariables (prior : List (String × VarItem))
    (payload : List (String × JVal)) (clear : Bool) :
    List (String × VarItem) :=
  let base := if clear then [] else prior
  payload.foldl (fun acc p =>
    aset acc (jsToLower p.1) ⟨p.1, jsString p.2⟩) base

/-- The shared dictionaries used by completion and hover. -/
structure ProviderStore where
  keywords : List (List String)
  steps : List (String × StepData)
  vars : List (String × VarItem)
  metatags : List String
  soundHint : String

/-- Scanner tail for `"[^"]*"` / `'[^']*'`: characters up to and
including the next closing quote, or none. -/
def toCloseTail (close : Char) : List Char → Option (List Char × List Char)
  | [] => none
  | c :: rest =>
    if c = close then some ([c], rest)
    else (toCloseTail close rest).map (fun (m, r) => (c :: m, r))

/-- Scanner tail for `<[^\s"']*>`: the greedy run of
non-whitespace/non-quote characters, backtracked to its last `>`. -/
def angleWordTail (rest : List Char) : Option (List Char × List Char) :=
  let run := rest.takeWhile (fun c => !jsWS c && !(c = '"') && !(c = '\''))
  let keep := (run.reverse.dropWhile (fun c => !(c = '>'))).reverse
  if keep.isEmpty then none
  else some (keep, rest.drop keep.length)

/-- All matches of `/"[^"]*"|'[^']*'|<[^\s"']*>/g` as
`(startColumn, endColumn)` pairs, `startColumn = index + 1` and
`endColumn = index + length + 1` (monaco `findMatches` ranges). -/
def placeholderRangesGo : Nat → Nat → List Char → List (Nat × Nat)
  | 0, _, _ => []
  | _ + 1, _, [] => []
  | fuel + 1, idx, c :: rest =>
    if c = '"' then
      match toCloseTail '"' rest with
      | some (m, r) =>
        (idx + 1, idx + m.length + 2) ::
          placeholderRangesGo fuel (idx + m.length + 1) r
      | none => placeholderRangesGo fuel (idx + 1) rest
    else if c = '\'' then
      match toCloseTail '\'' rest with
      | some (m, r) =>
        (idx + 1, idx + m.length + 2) ::
          placeholderRangesGo fuel (idx + m.length + 1) r
      | none => placeholderRangesGo fuel (idx + 1) rest
    else if c = '<' then
      match angleWordTail rest with
      | some (m, r) =>
        (idx + 1, idx + m.length + 2) ::
          placeholderRangesGo fuel (idx + m.length + 1) r
      | none => placeholderRangesGo fuel (idx + 1) rest
    else placeholderRangesGo fuel (idx + 1) rest

/-- The placeholder-token ranges of a line. -/
def placeholderRanges (line : String) : List (Nat × Nat) :=
  placeholderRangesGo line.data.length 0 line.data

/-- The `forEach` of `provideCompletionItems`: the last placeholder
range containing the cursor column. -/
def wordRangeAt (line : String) (column : Nat) : Option (Nat × Nat) :=
  (placeholderRanges line).foldl
    (fun acc r => if r.1 ≤ column ∧ column ≤ r.2 then some r else acc) none

/-- Source `model.getLineLastNonWhitespaceColumn`: one past the last non-
whitespace character (1-based), 0 when the line is all whitespace. -/
def lastNonWsColumn (line : String) : Nat :=
  let t := line.data.reverse.dropWhile jsWS
  if t.isEmpty then 0 else t.length + 1

/-- Source `model.getLineFirstNonWhitespaceColumn`: the 1-based column of the
first non-whitespace character, 0 when the line is all whitespace. -/
def firstNonWsColumn (line : String) : Nat :=
  if line.data.all jsWS then 0
  else (line.data.takeWhile jsWS).length + 1

/-- Source `model.getValueInRange` within one line, for 1-based columns. -/
def valueInCols (line : String) (startCol endCol : Nat) : String :=
  String.mk ((line.data.drop (startCol - 1)).take (endCol - startCol))

/-- The doubled-sigil test `/^.\$.+\$.$/`. -/
def sigilWrapped (s : String) : Bool :=
  let d := s.data
  decide (5 ≤ d.length) && (d.getD 1 ' ' == '$') &&
    (d.getD (d.length - 2) ' ' == '$')

/-- Source `line.match(/[^\s]+/g) || []`. -/
def wsWordsGo : Nat → List Char → List String
  | 0, _ => []
  | _ + 1, [] => []
  | fuel + 1, c :: rest =>
    if jsWS c then wsWordsGo fuel rest
    else
      let run := rest.takeWhile (fun c => !jsWS c)
      String.mk (c :: run) :: wsWordsGo fuel (rest.drop run.length)

/-- The whitespace-separated words of a line. -/
def wsWords (line : String) : List String :=
  wsWordsGo line.data.length line.data

/-- Source `keytext.charAt(0).toUpperCase() + keytext.slice(1)`. -/
def capitalizeFirst (s : String) : String :=
  match s.data with
  | [] => ""
  | c :: rest => String.mk (jsUpperChar c :: rest)

/-- The kind of a completion item
(`monaco.languages.CompletionItemKind` members the provider uses;
`Custom` carries a step's own configured kind number). -/
inductive CIKind where
  | Function
  | Variable
  | Keyword
  | Custom (k : Nat)
deriving DecidableEq

/-- One produced completion suggestion. -/
structure CompletionItem where
  label : String
  insertText : String
  kind : CIKind
  filterText : Option String := none
  sortText : Option String := none
  detail : Option String := none
  documentation : Option String := none
  rangeStart : Nat
  rangeEnd : Nat
deriving DecidableEq

/-- The `empty(position)` helper: one suggestion with empty label and
empty insert text over the single column before the cursor. -/
def emptyCompletion (column : Nat) : List CompletionItem :=
  [{ label := "", insertText := "", kind := .Function,
     rangeStart := column - 1, rangeEnd := column }]

/-- Source `provideCompletionItems` on the cursor's line (all ranges the source
reads are within `position.lineNumber`'s line). -/
def provideCompletionItems (σ : ProviderStore) (line : String)
    (column : Nat) : List CompletionItem :=
  match wordRangeAt line column with
  | some r =>
    let varText := valueInCols line r.1 r.2
    let Q1 := String.mk [varText.data.headD ' ']
    let Q2 := String.mk [varText.data.getLastD ' ']
    let S := if sigilWrapped varText then "$" else ""
    σ.vars.map (fun p =>
      { label := "\"" ++ S ++ p.2.name ++ S ++ "\" = " ++ p.2.value
        filterText := some (varText ++ S ++ p.2.name ++ S)
        insertText := Q1 ++ S ++ p.2.name ++ S ++ Q2
        kind := .Variable
        rangeStart := r.1
        rangeEnd := r.2 })
  | none =>
    let maxColumn := lastNonWsColumn line
    if maxColumn ≠ 0 ∧ column < maxColumn then emptyCompletion column
    else
      let minColumn := firstNonWsColumn line
      let words := wsWords line
      let rangeStart := if minColumn ≠ 0 then minColumn else column
      let rangeEnd := if maxColumn ≠ 0 then maxColumn else column
      match findKeyword σ.keywords words with
      | some kw =>
        let keytext := capitalizeFirst (String.intercalate " " kw)
        (σ.steps.filter (fun p => !(p.2.documentation == ""))).map (fun p =>
          { label := p.2.label
            kind := if p.2.kind = 0 then .Function else .Custom p.2.kind
            detail := some p.2.sectionName
            documentation := some p.2.documentation
            sortText := some p.2.sortText
            insertText := keytext ++ " " ++ p.2.insertText ++ "\n"
            filterText := some (keytext ++ " " ++ p.1)
            rangeStart := rangeStart
            rangeEnd := rangeEnd })
      | none =>
        σ.metatags.map (fun word =>
          { label := word, kind := .Keyword, insertText := word ++ "\n",
            rangeStart := rangeStart, rangeEnd := rangeEnd }) ++
        (σ.steps.filter (fun p => !(p.2.documentation == ""))).map (fun p =>
          { label := p.2.label
            kind := if p.2.kind = 0 then .Function else .Custom p.2.kind
            detail := some p.2.sectionName
            documentation := some p.2.documentation
            sortText := some p.2.sortText
            insertText := p.2.keyword ++ " " ++ p.2.insertText ++ "\n"
            filterText := some p.1
            rangeStart := rangeStart
            rangeEnd := rangeEnd })

/-- The matches of `/"[^"]+"|'[^']+'/g` (quoted tokens with nonempty
content), quotes included. -/
def quotedTokensGo : Nat → List Char → List String
  | 0, _ => []
  | _ + 1, [] => []
  | fuel + 1, c :: rest =>
    if c = '"' ∨ c = '\'' then
      let content := rest.takeWhile (fun x => !(x = c))
      let after := rest.drop content.length
      match after with
      | q :: after' =>
        if content.isEmpty then quotedTokensGo fuel rest
        else String.mk (c :: content ++ [q]) :: quotedTokensGo fuel after'
      | [] => quotedTokensGo fuel rest
    else quotedTokensGo fuel rest

/-- The quoted tokens of a line. -/
def quotedTokens (line : String) : List String :=
  quotedTokensGo line.data.length line.data

/-- The characters `escapeMarkdown` escapes:
`[\\`*_{}[\]()#+\-.!]` (the backtick is written by code). -/
def mdEscapable (c : Char) : Bool :=
  c = '\\' || c = Char.ofNat 96 || c = '*' || c = '_' || c = '{' ||
  c = '}' || c = '[' || c = ']' || c = '(' || c = ')' || c = '#' ||
  c = '+' || c = '-' || c = '.' || c = '!'

/-- Source `escapeMarkdown`: prefix every markdown syntax character with a
backslash. -/
def escapeMarkdown (text : String) : String :=
  String.mk (text.data.foldr
    (fun c acc => if mdEscapable c then '\\' :: c :: acc else c :: acc) [])

/-- Source `part.substring(d, part.length - d).toLowerCase()`: the variable
lookup key of one quoted token, where `d` is 2 for a doubled-sigil
token and 1 otherwise. -/
def placeholderKey (part : String) : String :=
  let d := if sigilWrapped part then 2 else 1
  jsToLower (String.mk ((part.data.take (part.data.length - d)).drop d))

/-- The `"**name** = value"` hover lines for the quoted tokens of a
line: each token's stripped, lowercased content is looked up in the
variable store. -/
def hoverVarLines (vars : List (String × VarItem)) (line : String) :
    List String :=
  (quotedTokens line).filterMap (fun part =>
    (alookup vars (placeholderKey part)).map
      (fun v => "**" ++ v.name ++ "** = " ++ v.value))

/-- Source `provideHover` contents (the `value` strings pushed, in order). -/
def provideHover (σ : ProviderStore) (line : String) (lineNumber : Nat) :
    List String :=
  match leadChars line with
  | '*' :: _ =>
    let matchLen := (line.data.takeWhile jsWS).length + 1
    ["**" ++ σ.soundHint ++ "** [" ++ String.mk [Char.ofNat 60277] ++
      "](#sound:" ++ toString lineNumber ++ ")",
     escapeMarkdown (String.mk (line.data.drop matchLen))]
  | _ =>
    let words := splitWords line
    let key := keyOf (filterWords σ.keywords words)
    match alookup σ.steps key with
    | none => []
    | some step =>
      let ih := "#info:" ++
        String.mk (key.data.map (fun c => if c = ' ' then '-' else c))
      let sh := "#sound:" ++ toString lineNumber
      ("**" ++ escapeMarkdown step.sectionName ++ "** [" ++
        String.mk [Char.ofNat 60020] ++ "](" ++ ih ++ ") [" ++
        String.mk [Char.ofNat 60277] ++ "](" ++ sh ++ ")") ::
      escapeMarkdown step.documentation ::
      hoverVarLines σ.vars line

/-- The store entry that effectively holds for a key after a
`setVariables` payload is folded in: the last payload entry whose
lowercased name is the key (later entries overwrite earlier ones). -/
def lastVarAssign : List (String × JVal) → String → Option VarItem
  | [], _ => none
  | p :: rest, key =>
    match lastVarAssign rest key with
    | some v => some v
    | none =>
      if jsToLower p.1 = key then some ⟨p.1, jsString p.2⟩ else none

/-- An empty provider store, for concrete completion scenarios. -/
def emptyProviderStore : ProviderStore :=
  { keywords := [], steps := [], vars := [], metatags := [],
    soundHint := "Sound" }

/-- The C10 scenario store: variable `UserName = 42` (a number payload)
and the step `do "x"`, so that a step line can show the variable. -/
def c10Store : ProviderStore :=
  { keywords := []
    steps := setStepList [] [] []
      [{ insertText := "do \"x\"", documentation := "Does" }] false
    vars := setVariables [] [("UserName", JVal.num 42)] false
    metatags := []
    soundHint := "Sound" }

/-! ## Quick fixes (C3)

The `jaro-winkler` npm package is an external dependency; the
similarity is a function parameter `score : String → String → ℚ`.
-/

/-- The fields of one `monaco.editor.IMarkerData` the quick-fix path
reads. -/
structure QFMarker where
  startLineNumber : Nat
  endLineNumber : Nat
  startColumn : Nat
  endColumn : Nat
deriving DecidableEq

/-- Source `model.getLineContent(n)` over a line list (1-based). -/
def lineAt (doc : List String) (n : Nat) : String :=
  doc.getD (n - 1) ""

/-- Source `model.getValueInRange` over a line list (1-based lines and
columns, multi-line ranges joined with newlines). -/
def getValueInRange (doc : List String) (sl sc el ec : Nat) : String :=
  if sl = el then valueInCols (lineAt doc sl) sc ec
  else
    String.intercalate "\n"
      (valueInCols (lineAt doc sl) sc ((lineAt doc sl).data.length + 1) ::
        ((List.range (el - sl - 1)).map (fun k => lineAt doc (sl + 1 + k)) ++
          [valueInCols (lineAt doc el) 1 ec]))

/-- Expect an exact character sequence; return the remainder. -/
def eatChars : List Char → List Char → Option (List Char)
  | [], l => some l
  | _ :: _, [] => none
  | c :: cs, x :: xs => if x = c then eatChars cs xs else none

/-- The tail of the regex built by `addQuickFix`
(`"^[\s]*" + w1 + "[\s]+" + w2 + "[\s]+" + …`) after the leading
whitespace: each keyword word followed by at least one whitespace
character, greedily.  Returns the matched length. -/
def matchKwWordsGo : List String → List Char → Option Nat
  | [], _ => some 0
  | w :: ws, l =>
    match eatChars w.data l with
    | none => none
    | some r1 =>
      let wsrun := r1.takeWhile jsWS
      if wsrun.isEmpty then none
      else
        (matchKwWordsGo ws (r1.drop wsrun.length)).map
          (fun n => w.data.length + wsrun.length + n)

/-- Source `value.toLowerCase().match(new RegExp(regexp))` for the keyword
prefix regex: length of the match, if any. -/
def matchKwPrefix (kw : List String) (value : String) : Option Nat :=
  let l := (jsToLower value).data
  let lead := l.takeWhile jsWS
  (matchKwWordsGo kw (l.drop lead.length)).map (fun n => lead.length + n)

/-- One accumulated quick-fix candidate
(`{key, sum, error, range, words}`). -/
structure QFCandidate where
  key : String
  sum : ℚ
  marker : QFMarker
  rangeStartColumn : Nat
  rangeEndColumn : Nat
  words : List String
deriving DecidableEq

/-- Insertion step of `list.sort((a, b) => b.sum - a.sum)`. -/
def insertBySumDesc (c : QFCandidate) : List QFCandidate → List QFCandidate
  | [] => [c]
  | x :: xs =>
    if c.sum ≤ x.sum then x :: insertBySumDesc c xs else c :: x :: xs

/-- Sort candidates by non-increasing similarity. -/
def sortBySumDesc (l : List QFCandidate) : List QFCandidate :=
  l.foldr insertBySumDesc []

/-- The `model.getValueInRange(range)` text of one marker, the range
starting at column 1. -/
def qfValue (doc : List String) (marker : QFMarker) : String :=
  getValueInRange doc marker.startLineNumber 1 marker.endLineNumber
    marker.endColumn

/-- The fixable sub-range start column: one past the matched keyword
prefix when the prefix regex matches, otherwise the original column
1. -/
def qfStartCol (keyword : List String) (value : String) : Nat :=
  match matchKwPrefix keyword value with
  | some len => len + 1
  | none => 1

/-- Source `addQuickFix(model, list, error)`: no candidates when no keyword
leads the flagged text; otherwise score the normalized phrase key
against every step key, keep scores above `0.7`, and re-sort the whole
accumulated list. -/
def addQuickFix (score : String → String → ℚ)
    (keywords : List (List String)) (steps : List (String × StepData))
    (doc : List String) (acc : List QFCandidate) (marker : QFMarker) :
    List QFCandidate :=
  match findKeyword keywords (splitWords (qfValue doc marker)) with
  | none => acc
  | some keyword =>
    sortBySumDesc (acc ++ steps.filterMap (fun p =>
      if mkRat 7 10 <
          score (keyOf (filterWords keywords
            (splitWords (qfValue doc marker)))) p.1 then
        some ⟨p.1,
          score (keyOf (filterWords keywords
            (splitWords (qfValue doc marker)))) p.1,
          marker, qfStartCol keyword (qfValue doc marker),
          marker.endColumn, splitWords (qfValue doc marker)⟩
      else none))

/-- The candidate list accumulated across all supplied diagnostics. -/
def quickFixList (score : String → String → ℚ)
    (keywords : List (List String)) (steps : List (String × StepData))
    (doc : List String) (markers : List QFMarker) : List QFCandidate :=
  markers.foldl (addQuickFix score keywords steps doc) []

/-- Replace the placeholder tokens of a step head, in order, by the
placeholder tokens already present in the offending line. -/
def replaceParamsGo : List String → List String → List String
  | [], _ => []
  | w :: ws, params =>
    if testParamToken w then
      match params with
      | p :: ps => p :: replaceParamsGo ws ps
      | [] => w :: replaceParamsGo ws []
    else w :: replaceParamsGo ws params

/-- Source `replaceParams(step, line)`. -/
def replaceParams (keywords : List (List String)) (step : List String)
    (line : List String) : String :=
  String.intercalate " "
    (replaceParamsGo (filterWords keywords step) (line.filter testParamToken))

/-- One produced fix action. -/
structure QFAction where
  title : String
  isPreferred : Bool
  marker : QFMarker
  editStartLineNumber : Nat
  editEndLineNumber : Nat
  editStartColumn : Nat
  editEndColumn : Nat
  editText : String
deriving DecidableEq

/-- Build the action of one candidate. -/
def mkQuickFixAction (keywords : List (List String))
    (steps : List (String × StepData)) (c : QFCandidate) : QFAction :=
  let step := (alookup steps c.key).getD
    ⟨[], [], "", "", "", "", 0, "", ""⟩
  let text := replaceParams keywords step.head c.words
  { title := text
    isPreferred := true
    marker := c.marker
    editStartLineNumber := c.marker.startLineNumber
    editEndLineNumber := c.marker.endLineNumber
    editStartColumn := c.rangeStartColumn
    editEndColumn := c.rangeEndColumn
    editText := text }

/-- Source `getQuickFix`: at most the first seven candidates (`if (i > 6)
return`) become actions. -/
def getQuickFix (score : String → String → ℚ)
    (keywords : List (List String)) (steps : List (String × StepData))
    (doc : List String) (markers : List QFMarker) : List QFAction :=
  ((quickFixList score keywords steps doc markers).take 7).map
    (mkQuickFixAction keywords steps)

/-- Candidate lists sorted by non-increasing similarity. -/
def SumSorted (l : List QFCandidate) : Prop :=
  l.Pairwise (fun a b => b.sum ≤ a.sum)

/-- The concrete stores of the C3 counterexample. -/
def cexKeywords : List (List String) := setKeywordsPure ["do"]

/-- One registered step under the key `x`. -/
def cexSteps : List (String × StepData) :=
  [("x", ⟨["do", "y"], [], "", "", "", "", 0, "", ""⟩)]

/-! ## Link resolution (C6)

`getLinks` scans the variables block; `getLinkData` resolves a dotted
key against the built tables.  The `variables` section pattern, the
general section pattern and the import-directive pattern come from the
absent `matcher.ts` and are parameters.
-/

/-- One resolved record (`{key, name, data}` plus the fields the
lookup decorates it with). -/
structure LinkRow where
  key : String
  name : String
  data : List (String × String) := []
  file : Option String := none
  column : Option String := none
  table : Option String := none
  param : Option String := none
deriving DecidableEq

/-- The link tables: table name → row key → record. -/
abbrev Links := List (String × List (String × LinkRow))

/-- Source `trimQuotes(w)`: strip one leading and one trailing quote
character (double or single, independently) when both are present; JS
`.` keeps the regex from matching across line terminators. -/
def trimQuotes (s : String) : String :=
  match s.data with
  | [] => s
  | c :: rest =>
    if (c = '"' ∨ c = '\'') ∧ rest ≠ [] ∧
        (rest.getLast? = some '"' ∨ rest.getLast? = some '\'') ∧
        rest.dropLast.all (fun x => !(x = '\n') && !(x = '\r')) then
      String.mk rest.dropLast
    else s

/-- JS `String.prototype.trim()`. -/
def jsTrim (s : String) : String :=
  String.mk (((s.data.dropWhile jsWS).reverse.dropWhile jsWS).reverse)

/-- Scanner tail of the first cell alternative `"(\\\|[^"])*"`: the
group is the three-character sequence backslash, pipe, non-quote,
repeated, then the closing quote. -/
def cellDQTail : List Char → Option (List Char × List Char)
  | '"' :: rest => some (['"'], rest)
  | '\\' :: '|' :: c :: rest =>
    if c = '"' then none
    else (cellDQTail rest).map (fun (m, r) => ('\\' :: '|' :: c :: m, r))
  | _ => none

/-- Scanner tail of the second cell alternative `'(\\'|[^'])*'`: an
escaped quote or any non-quote, repeated, then the closing quote; when
the escape path fails the backslash is reread as a plain character and
the following quote closes the match (regex backtracking). -/
def cellSQTail : List Char → Option (List Char × List Char)
  | [] => none
  | '\'' :: rest => some (['\''], rest)
  | '\\' :: '\'' :: rest =>
    match cellSQTail rest with
    | some (m, r) => some ('\\' :: '\'' :: m, r)
    | none => some (['\\', '\''], rest)
  | c :: rest => (cellSQTail rest).map (fun (m, r) => (c :: m, r))

/-- The matches of the cell regex
`/"(\\\|[^"])*"|'(\\'|[^'])*'|[^\s\|][^\|]*[^\s\|]|[^\s\|]/g`: the two
quoted forms, else the run from a non-space non-pipe character up to
the last non-space character before the next pipe (at least two
characters), else that single character. -/
def cellScanGo : Nat → List Char → List String
  | 0, _ => []
  | _ + 1, [] => []
  | fuel + 1, c :: rest =>
    if c = '"' ∨ c = '\'' then
      match (if c = '"' then cellDQTail rest else cellSQTail rest) with
      | some (m, r) => String.mk (c :: m) :: cellScanGo fuel r
      | none =>
        let seg := c :: rest.takeWhile (fun x => !(x = '|'))
        let trimmed := (seg.reverse.dropWhile jsWS).reverse
        if 2 ≤ trimmed.length then
          String.mk trimmed :: cellScanGo fuel (rest.drop (trimmed.length - 1))
        else String.mk [c] :: cellScanGo fuel rest
    else if jsWS c ∨ c = '|' then cellScanGo fuel rest
    else
      let seg := c :: rest.takeWhile (fun x => !(x = '|'))
      let trimmed := (seg.reverse.dropWhile jsWS).reverse
      if 2 ≤ trimmed.length then
        String.mk trimmed :: cellScanGo fuel (rest.drop (trimmed.length - 1))
      else String.mk [c] :: cellScanGo fuel rest

/-- Source `line.match(cellRegexp)`: `none` models the `null` result. -/
def parseCells (line : String) : Option (List String) :=
  match cellScanGo line.data.length line.data with
  | [] => none
  | cells => some cells

/-- The assignment pattern
`/^\s*([A-zА-яЁё][0-9A-zА-яЁё]*)\s*=\s*(.*)\s*$/`: identifier and the
raw right-hand side (trimmed later by the caller). -/
def parseAssignment (line : String) : Option (String × String) :=
  match line.data.dropWhile jsWS with
  | [] => none
  | c :: rest =>
    if vaLetter c then
      let ident := rest.takeWhile vaIdChar
      match (rest.drop ident.length).dropWhile jsWS with
      | '=' :: r3 =>
        some (String.mk (c :: ident), String.mk (r3.dropWhile jsWS))
      | _ => none
    else none

/-- Source `/^\s*\|/.test(line)`. -/
def startsWithPipe (line : String) : Bool :=
  match leadChars line with
  | '|' :: _ => true
  | _ => false

/-- Source `/^\s*\*/.exec(line)`: the table-marker content (after the star),
or none. -/
def starContent (line : String) : Option String :=
  match leadChars line with
  | '*' :: _ =>
    some (String.mk (line.data.drop ((line.data.takeWhile jsWS).length + 1)))
  | _ => none

/-- Source `links[tableName][rowKey] = row`, creating the table on demand. -/
def linksSet (links : Links) (table rowKey : String) (row : LinkRow) :
    Links :=
  aset links table (aset ((alookup links table).getD []) rowKey row)

/-- Source `multidata["name"] = multitext` when `multidata` aliases the record
`links[""][k]`. -/
def linksSetName (links : Links) (k nm : String) : Links :=
  match alookup links "" with
  | none => links
  | some tbl =>
    aset links ""
      (tbl.map (fun p => if p.1 == k then (p.1, { p.2 with name := nm })
        else p))

/-- Merging an imported file: its default-table entries are copied into
the default table one by one, its named tables are copied wholesale. -/
def mergeImport (links : Links) (vars : Links) : Links :=
  let links1 := ((alookup vars "").getD []).foldl
    (fun acc p => linksSet acc "" p.1 p.2) links
  vars.foldl (fun acc p => if p.1 == "" then acc else aset acc p.1 p.2)
    links1

/-- The mutable state of the variables-block scan. -/
structure LinkScanState where
  tableName : String
  columns : Option (List String)
  links : Links
  multiline : Bool
  multitext : String
  multidataKey : Option String

/-- The inner loop of `getLinks` from line `i`: returns the built
tables and the terminating section's line number, or `none` when the
document ends first (the source then falls back to the outer loop and
the built tables are discarded). -/
def linkScanGo (isSection : String → Bool)
    (matchImport : String → Option String) (imports : List (String × Links))
    (doc : List String) (n : Nat) :
    Nat → LinkScanState → Nat → Option (Links × Nat)
  | 0, _, _ => none
  | fuel + 1, st, i =>
    if n < i then none
    else
      let line := lineAt doc i
      if isMultilineDelim line then
        let ml := !st.multiline
        let mt := if ml then "" else st.multitext
        let st' := { st with multiline := ml, multitext := mt }
        linkScanGo isSection matchImport imports doc n fuel st' (i + 1)
      else if st.multiline then
        let mt := st.multitext ++ (if st.multitext = "" then "" else "\n") ++
          line
        let links' := match st.multidataKey with
          | some k => linksSetName st.links k mt
          | none => st.links
        let st' := { st with multitext := mt, links := links' }
        linkScanGo isSection matchImport imports doc n fuel st' (i + 1)
      else if startsWithPipe line then
        match parseCells line with
        | none => linkScanGo isSection matchImport imports doc n fuel st (i + 1)
        | some cells =>
          match st.columns with
          | none =>
            linkScanGo isSection matchImport imports doc n fuel
              { st with columns := some (cells.map trimQuotes) } (i + 1)
          | some columns =>
            let m0 := cells.map trimQuotes
            let m := m0 ++ List.replicate (columns.length - m0.length) ""
            let rdata := (List.range columns.length).foldl
              (fun acc j => aset acc (columns.getD j "") (m.getD j "")) []
            let row : LinkRow := { key := m.getD 0 "", name := m.getD 1 "", data := rdata }
            let links' := linksSet st.links st.tableName (jsToLower (m.getD 0 "")) row
            let st' := { st with links := links' }
            linkScanGo isSection matchImport imports doc n fuel st' (i + 1)
      else
        match parseAssignment line with
        | some (ident, rhs) =>
          let key := jsToLower ident
          let value := jsTrim rhs
          let links' := linksSet st.links "" key ⟨key, value, [], none, none, none, none⟩
          let st' := { st with tableName := "", columns := none, multidataKey := some key, links := links' }
          linkScanGo isSection matchImport imports doc n fuel st' (i + 1)
        | none =>
          match matchImport line with
          | some m3 =>
            let filename := jsToLower (trimQuotes (jsTrim m3))
            let links' := match alookup imports filename with
              | some vars => mergeImport st.links vars
              | none => st.links
            let st' := { st with tableName := "", columns := none, multidataKey := none, links := links' }
            linkScanGo isSection matchImport imports doc n fuel st' (i + 1)
          | none =>
            if isCommentOrInstruction line then
              linkScanGo isSection matchImport imports doc n fuel st (i + 1)
            else
              match starContent line with
              | some content =>
                let st' := { st with tableName := jsToLower (jsTrim content) }
                linkScanGo isSection matchImport imports doc n fuel st' (i + 1)
              | none =>
                if isSection line then some (st.links, i)
                else
                  let tn := if st.columns.isSome then "" else st.tableName
                  let st' := { st with tableName := tn, columns := none, multidataKey := none }
                  linkScanGo isSection matchImport imports doc n fuel st' (i + 1)

/-- The outer loop of `getLinks`: find a line matching the variables
section pattern among lines `1 … lineCount - 1` and scan its block; if
the block is never terminated by a section line, continue searching,
and fall out with empty tables and
`position.lineNumber = lineCount`. -/
def getLinksOuterGo (isVars isSection : String → Bool)
    (matchImport : String → Option String) (imports : List (String × Links))
    (doc : List String) (n : Nat) : Nat → Nat → Links × Nat
  | 0, _ => ([], n)
  | fuel + 1, k =>
    if n - 1 < k then ([], n)
    else if isVars (lineAt doc k) then
      match linkScanGo isSection matchImport imports doc n (n + 1)
          { tableName := "", columns := none, links := [("", [])],
            multiline := false, multitext := "", multidataKey := none }
          (k + 1) with
      | some res => res
      | none =>
        getLinksOuterGo isVars isSection matchImport imports doc n fuel
          (k + 1)
    else
      getLinksOuterGo isVars isSection matchImport imports doc n fuel (k + 1)

/-- Source `getLinks(model, position)`: the built tables and the updated
`position.lineNumber`. -/
def getLinksModel (isVars isSection : String → Bool)
    (matchImport : String → Option String) (imports : List (String × Links))
    (doc : List String) : Links × Nat :=
  getLinksOuterGo isVars isSection matchImport imports doc doc.length
    (doc.length + 1) 1

/-- The `data(table, row, col)` closure of `getLinkData`, without its
one-step fallback. -/
def linkLookup (links : Links) (key : String) (t r : String)
    (c : Option String) : Option LinkRow :=
  match alookup links t with
  | none => none
  | some tbl =>
    match alookup tbl r with
    | none => none
    | some obj =>
      some { obj with
        column := match c with
          | some s => if s = "" then obj.column else some s
          | none => obj.column
        table := some t
        param := some key }

/-- Source `data(table, row, col)` with the fallback: a bare row that fails
under its own name is retried as a row of the default table. -/
def linkLookupFB (links : Links) (key : String) (t r : String)
    (c : Option String) : Option LinkRow :=
  match linkLookup links key t r c with
  | some x => some x
  | none => if c.isNone then linkLookup links key "" t (some r) else none

/-- Source `getLinkData(editor, key)`. -/
def getLinkData (isVars isSection : String → Bool)
    (matchImport : String → Option String) (imports : List (String × Links))
    (doc : List String) (key : String) : Option LinkRow :=
  let links := (getLinksModel isVars isSection matchImport imports doc).1
  let words := (jsSplitChar '.' key.data).map
    (fun p => jsToLower (String.mk p))
  match words with
  | [w1] => linkLookupFB links key "" w1 none
  | [w1, w2] => linkLookupFB links key w1 w2 none
  | [w1, w2, w3] => linkLookupFB links key w1 w2 (some w3)
  | _ => none

/-- The Scenario D document: a variables section line, the table marker
`* Users`, a header row, one data row, and a terminating section
line. -/
def c6Doc : List String :=
  ["Vars:", "* Users", "| id | name |", "| 1 | Alice |", "Scenario:"]

/-! ## Theorems -/

theorem toNat_charOfNat (n : Nat) (h : n < 55296) : (Char.ofNat n).toNat = n := by
  unfold Char.ofNat
  rw [dif_pos (Or.inl h)]
  simp [Char.ofNatAux, Char.toNat, UInt32.toNat, UInt32.ofNat', BitVec.toNat_ofNat]

theorem jsLowerChar_idem (c : Char) : jsLowerChar (jsLowerChar c) = jsLowerChar c := by
  unfold jsLowerChar
  split
  · rename_i h
    have hv : (Char.ofNat (c.toNat + 32)).toNat = c.toNat + 32 :=
      toNat_charOfNat _ (by omega)
    rw [if_neg (by omega), if_neg (by omega), if_neg (by omega)]
  · split
    · rename_i h
      have hv : (Char.ofNat (c.toNat + 32)).toNat = c.toNat + 32 :=
        toNat_charOfNat _ (by omega)
      rw [if_neg (by omega), if_neg (by omega), if_neg (by omega)]
    · split
      · rename_i h
        have hv : (Char.ofNat 1105).toNat = 1105 := by decide
        rw [if_neg (by omega), if_neg (by omega), if_neg (by omega)]
      · rfl

theorem jsToLower_idem (s : String) : jsToLower (jsToLower s) = jsToLower s := by
  unfold jsToLower
  simp [List.map_map, Function.comp_def, jsLowerChar_idem]

theorem jsSplitSpace_ne_nil (l : List Char) : jsSplitSpace l ≠ [] := by
  induction l with
  | nil => simp [jsSplitSpace]
  | cons c rest ih =>
    by_cases h : c = ' '
    · simp [jsSplitSpace, h]
    · cases hps : jsSplitSpace rest with
      | nil => exact absurd hps ih
      | cons p ps => simp [jsSplitSpace, h, hps]

/-- Every character of every part of a space-split comes from the input. -/
theorem jsSplitSpace_chars {l : List Char} {p : List Char} {c : Char}
    (hp : p ∈ jsSplitSpace l) (hc : c ∈ p) : c ∈ l := by
  induction l generalizing p with
  | nil =>
    simp [jsSplitSpace] at hp
    subst hp; simp at hc
  | cons a rest ih =>
    by_cases ha : a = ' '
    · rw [jsSplitSpace, if_pos ha] at hp
      rcases List.mem_cons.mp hp with hp | hp
      · subst hp; simp at hc
      · exact List.mem_cons_of_mem _ (ih hp hc)
    · rw [jsSplitSpace, if_neg ha] at hp
      cases hps : jsSplitSpace rest with
      | nil => exact absurd hps (jsSplitSpace_ne_nil rest)
      | cons q qs =>
        rw [hps] at hp
        rcases List.mem_cons.mp hp with hp | hp
        · subst hp
          rcases List.mem_cons.mp hc with hc | hc
          · simp [hc]
          · exact List.mem_cons_of_mem _
              (ih (by rw [hps]; exact List.mem_cons_self _ _) hc)
        · exact List.mem_cons_of_mem _
            (ih (by rw [hps]; exact List.mem_cons_of_mem _ hp) hc)

theorem mem_insertByLenDesc {k x : List String} {l : List (List String)} :
    x ∈ insertByLenDesc k l ↔ x = k ∨ x ∈ l := by
  induction l with
  | nil => simp [insertByLenDesc]
  | cons a as ih =>
    by_cases h : k.length ≤ a.length
    · simp only [insertByLenDesc, if_pos h, List.mem_cons, ih]
      tauto
    · simp only [insertByLenDesc, if_neg h, List.mem_cons]

theorem mem_sortByLenDesc {x : List String} {l : List (List String)} :
    x ∈ sortByLenDesc l ↔ x ∈ l := by
  induction l with
  | nil => simp [sortByLenDesc]
  | cons a as ih =>
    simp only [sortByLenDesc, List.foldr] at *
    rw [mem_insertByLenDesc, ih]
    simp

theorem lenSorted_insert {k : List String} {l : List (List String)}
    (h : LenSorted l) : LenSorted (insertByLenDesc k l) := by
  induction l with
  | nil =>
    simp [insertByLenDesc, LenSorted]
  | cons a as ih =>
    rcases List.pairwise_cons.mp h with ⟨ha, has⟩
    by_cases hk : k.length ≤ a.length
    · rw [insertByLenDesc, if_pos hk]
      refine List.pairwise_cons.mpr ⟨?_, ih has⟩
      intro b hb
      rcases mem_insertByLenDesc.mp hb with hb | hb
      · subst hb; exact hk
      · exact ha b hb
    · rw [insertByLenDesc, if_neg hk]
      refine List.pairwise_cons.mpr ⟨?_, h⟩
      intro b hb
      rcases List.mem_cons.mp hb with hb | hb
      · subst hb; omega
      · exact le_trans (ha b hb) (by omega)

theorem lenSorted_sortByLenDesc (l : List (List String)) :
    LenSorted (sortByLenDesc l) := by
  induction l with
  | nil => simp [sortByLenDesc, LenSorted]
  | cons a as ih => exact lenSorted_insert ih

/-- Every word of every keyword produced by `setKeywordsPure` is fully
lowercased (the phrase is lowercased before being split at spaces). -/
theorem setKeywordsPure_lower {phrases : List String} {k : List String}
    (hk : k ∈ setKeywordsPure phrases) {w : String} (hw : w ∈ k) :
    jsToLower w = w := by
  rw [setKeywordsPure, mem_sortByLenDesc] at hk
  simp only [List.map_map, List.mem_map, Function.comp] at hk
  rcases hk with ⟨phrase, _, hk⟩
  subst hk
  rcases List.mem_map.mp hw with ⟨part, hpart, hws⟩
  subst hws
  unfold jsToLower
  congr 1
  show List.map jsLowerChar part = part
  have hchars : ∀ c ∈ part, jsLowerChar c = c := by
    intro c hc
    have hmem : c ∈ (jsToLower phrase).data := jsSplitSpace_chars hpart hc
    unfold jsToLower at hmem
    rcases List.mem_map.mp hmem with ⟨c0, _, hc0⟩
    rw [← hc0]
    exact jsLowerChar_idem c0
  calc List.map jsLowerChar part = List.map id part :=
        List.map_congr_left (fun c hc => hchars c hc)
    _ = part := List.map_id part

/-- For fully-lowercased keywords and nonempty tokens, the source's
match test coincides with case-insensitive positional prefixing. -/
theorem kwEvery_iff_casePrefix {k words : List String}
    (hlow : ∀ w ∈ k, jsToLower w = w) (hne : ∀ w ∈ words, w ≠ "") :
    kwEvery k words = true ↔ casePrefixB k words = true := by
  induction k generalizing words with
  | nil => cases words <;> simp [kwEvery, casePrefixB]
  | cons a ks ih =>
    cases words with
    | nil => simp [kwEvery, casePrefixB]
    | cons w ws =>
      have hA : jsToLower a = a := hlow a (List.mem_cons_self _ _)
      have hw : w ≠ "" := hne w (List.mem_cons_self _ _)
      have ihs := ih (fun x hx => hlow x (List.mem_cons_of_mem _ hx))
        (fun x hx => hne x (List.mem_cons_of_mem _ hx))
      simp only [kwEvery, casePrefixB, Bool.and_eq_true, beq_iff_eq]
      constructor
      · rintro ⟨⟨-, h2⟩, h3⟩
        refine ⟨?_, ihs.mp h3⟩
        rw [hA, h2]
      · rintro ⟨h1, h2⟩
        refine ⟨⟨by simpa using hw, ?_⟩, ihs.mpr h2⟩
        rw [← hA, h1]

/-- In a list sorted by descending length, `find?` returns a match of
maximal length. -/
theorem find_max_length {l : List (List String)} {p : List String → Bool}
    {k : List String} (hs : LenSorted l) (hf : l.find? p = some k) :
    ∀ x ∈ l, p x = true → x.length ≤ k.length := by
  induction l with
  | nil => simp at hf
  | cons a as ih =>
    rcases List.pairwise_cons.mp hs with ⟨ha, has⟩
    by_cases hp : p a
    · rw [List.find?_cons_of_pos _ hp] at hf
      injection hf with hf
      subst hf
      intro x hx _
      rcases List.mem_cons.mp hx with hx | hx
      · subst hx; exact le_refl _
      · exact ha x hx
    · rw [List.find?_cons_of_neg _ (by simpa using hp)] at hf
      intro x hx hpx
      rcases List.mem_cons.mp hx with hx | hx
      · subst hx; exact absurd hpx (by simpa using hp)
      · exact ih has hf x hx hpx

/-- C2 counterexample: as literally stated ("every token sequence"),
the claim fails.  Registering the phrase `"a "` stores the keyword
`["a", ""]`; on the token sequence `["a", ""]` this keyword is a
case-insensitive positional prefix, yet `findKeyword` returns none,
because the empty-string token fails the JS truthiness test
`words[i] &&`. -/
theorem findKeyword_misses_empty_token :
    findKeyword (setKeywordsPure ["a "]) ["a", ""] = none ∧
    casePrefixB ["a", ""] ["a", ""] = true := by
  constructor
  · rfl
  · rfl

/-- C2 (amended): for token sequences whose tokens are all nonempty
strings, `findKeyword` over a `setKeywords`-registered keyword list
returns none iff the sequence is empty or no registered keyword is a
case-insensitive positional prefix of it, and any returned keyword is a
registered case-insensitive positional prefix of maximal word count. -/
theorem findKeyword_longest_match (phrases words : List String)
    (hne : ∀ w ∈ words, w ≠ "") :
    (findKeyword (setKeywordsPure phrases) words = none ↔
      (words = [] ∨ ∀ k ∈ setKeywordsPure phrases, casePrefixB k words = false)) ∧
    (∀ k, findKeyword (setKeywordsPure phrases) words = some k →
      k ∈ setKeywordsPure phrases ∧ casePrefixB k words = true ∧
      ∀ k' ∈ setKeywordsPure phrases, casePrefixB k' words = true →
        k'.length ≤ k.length) := by
  have hiff : ∀ k ∈ setKeywordsPure phrases,
      (kwEvery k words = true ↔ casePrefixB k words = true) := by
    intro k hk
    exact kwEvery_iff_casePrefix (fun w hw => setKeywordsPure_lower hk hw) hne
  constructor
  · by_cases hw : words.length = 0
    · rw [findKeyword, if_pos hw]
      simp only [true_iff]
      exact Or.inl (List.length_eq_zero.mp hw)
    · rw [findKeyword, if_neg hw]
      rw [List.find?_eq_none]
      constructor
      · intro h
        refine Or.inr (fun k hk => ?_)
        have := h k hk
        rcases Bool.eq_false_or_eq_true (casePrefixB k words) with hc | hc
        · exact absurd ((hiff k hk).mpr hc) (by simpa using this)
        · exact hc
      · rintro (h | h)
        · exact absurd (congrArg List.length h) (by simpa using hw)
        · intro k hk
          have := h k hk
          intro hcon
          rw [(hiff k hk).mp hcon] at this
          exact Bool.true_eq_false.mp this
  · intro k hfind
    by_cases hw : words.length = 0
    · rw [findKeyword, if_pos hw] at hfind
      exact absurd hfind (by simp)
    · rw [findKeyword, if_neg hw] at hfind
      have hmem : k ∈ setKeywordsPure phrases := List.mem_of_find?_eq_some hfind
      have hmatch : kwEvery k words = true := by
        have := List.find?_some hfind
        simpa using this
      refine ⟨hmem, (hiff k hmem).mp hmatch, ?_⟩
      intro k' hk' hck'
      exact find_max_length (lenSorted_sortByLenDesc _) hfind k' hk'
        ((hiff k' hk').mpr hck')

/-- C2 witness, which is also Scenario A of the specification: with
keywords `["when", "when not"]` and tokens `["when", "not", "x"]` the
matched keyword is `["when", "not"]`, and it is a maximal
case-insensitive prefix. -/
theorem findKeyword_longest_match_witness :
    findKeyword (setKeywordsPure ["when", "when not"]) ["when", "not", "x"] =
      some ["when", "not"] ∧
    (∀ k' ∈ setKeywordsPure ["when", "when not"],
      casePrefixB k' ["when", "not", "x"] = true →
        k'.length ≤ (["when", "not"] : List String).length) := by
  constructor
  · rfl
  · exact ((findKeyword_longest_match ["when", "when not"] ["when", "not", "x"]
      (by intro w hw; fin_cases hw <;> simp)).2 ["when", "not"] (by rfl)).2.2

/-- C4: with the step registered as `click button`, `keypairs["click"] =
["twice"]`, the line `click button twice` is never flagged: its
normalized phrase minus its last word (`button`) matches the stored
step and the last word belongs to the keypair set.  This holds for
every step-line pattern and section matcher (the absent `matcher.ts`),
both at the `lineSyntaxError` level and for the whole `checkSyntax`
scan of a document consisting of that line. -/
theorem keypair_continuation_no_diagnostic
    (stepMatch isSection : String → Bool) (getSection : String → String) :
    lineSyntaxError stepMatch clickKeywords clickSteps clickKeypairs
      "click button twice" = false ∧
    checkSyntaxProblems stepMatch isSection getSection clickKeywords
      clickSteps clickKeypairs ["click button twice"] = [] := by
  have hline : lineSyntaxError stepMatch clickKeywords clickSteps clickKeypairs
      "click button twice" = false := by
    cases h : stepMatch "click button twice" with
    | false => simp only [lineSyntaxError, h]; decide
    | true => simp only [lineSyntaxError, h]; decide
  refine ⟨hline, ?_⟩
  rw [checkSyntaxProblems, checkSyntaxGo]
  rw [if_neg (by decide), if_neg (by decide), if_neg (by decide)]
  cases hs : isSection "click button twice" with
  | false =>
    rw [if_neg (by simp [hs]), if_neg (by decide), if_neg (by simp [hline]),
      checkSyntaxGo]
  | true =>
    rw [if_pos (by simp [hs]), checkSyntaxGo]

/-- C7 divergence: on the line `/x`, whose leading text begins with a
single slash (not `//` and not `#`), the code classifies Comment while
the claim's classifier yields Operator. -/
theorem getToken_single_slash_divergence :
    getToken "/x" = VAToken.Comment ∧ claimClassify "/x" = VAToken.Operator := by
  constructor
  · rfl
  · rfl

/-- C7 (amended): the classifier agrees everywhere with the claim's
decision list once the Comment clause reads "begins with `#` or `/`"
instead of "begins with `#` or `//`". -/
theorem getToken_eq_amendedClassify (text : String) :
    getToken text = amendedClassify text := by
  unfold getToken amendedClassify
  by_cases h0 : (leadChars text).isEmpty
  · simp [h0]
  · by_cases h2 : ['@'].isPrefixOf (leadChars text)
    · simp [h0, h2]
    · by_cases h3 : ['|'].isPrefixOf (leadChars text)
      · simp [h0, h2, h3]
      · simp [h0, h2, h3]

/-- C9: for a model whose language id is not `turbo-gherkin`,
`checkSyntax` leaves the model — in particular its marker set —
completely unchanged. -/
theorem checkSyntax_ignores_foreign_models
    (stepMatch isSection : String → Bool) (getSection : String → String)
    (keywords : List (List String)) (steps : List (String × StepData))
    (keypairs : List (String × List String)) (m : TextModel)
    (h : m.modeId ≠ "turbo-gherkin") :
    checkSyntaxModel stepMatch isSection getSection keywords steps keypairs m
      = m := by
  unfold checkSyntaxModel
  rw [if_pos h]

/-- C9 witness: a plaintext model with a nonempty marker set is left
untouched. -/
theorem checkSyntax_ignores_foreign_models_witness :
    checkSyntaxModel (fun _ => true) (fun _ => false) (fun _ => "") [] [] []
      { modeId := "plaintext", lines := ["any line"], syntaxMarkers := [1] } =
      { modeId := "plaintext", lines := ["any line"], syntaxMarkers := [1] } :=
  checkSyntax_ignores_foreign_models (fun _ => true) (fun _ => false)
    (fun _ => "") [] [] []
    { modeId := "plaintext", lines := ["any line"], syntaxMarkers := [1] }
    (by decide)

theorem getIndent_pos (tabSize : Nat) (text : String) :
    1 ≤ getIndent tabSize text := by
  unfold getIndent
  split
  · exact le_refl 1
  · omega

theorem classifyLines_wf (isSection : String → Bool) (tabSize : Nat)
    (doc : List String) (ml : Bool) :
    WFIndent (classifyLines isSection tabSize doc ml) := by
  induction doc generalizing ml with
  | nil => intro e he; simp [classifyLines] at he
  | cons text rest ih =>
    intro e he
    by_cases hml : ml
    · subst hml
      simp only [classifyLines, if_pos rfl] at he
      rcases List.mem_cons.mp he with he | he
      · subst he; exact ⟨fun h => by simp at h, fun _ => rfl⟩
      · exact ih _ e he
    · rw [Bool.not_eq_true] at hml
      subst hml
      simp only [classifyLines, Bool.false_eq_true, if_false] at he
      rcases List.mem_cons.mp he with he | he
      · subst he
        by_cases hop : getToken text = VAToken.Operator
        · by_cases hsec : isSection text
          · simp only [hop, if_pos rfl, hsec, if_pos rfl]
            exact ⟨fun h => by simp at h, fun _ => rfl⟩
          · simp only [hop, if_pos rfl, hsec, Bool.false_eq_true, if_false]
            exact ⟨fun _ => getIndent_pos tabSize text,
              fun h => absurd rfl h⟩
        · rw [if_neg hop]
          exact ⟨fun h => absurd h hop, fun _ => rfl⟩
      · exact ih _ e he

theorem WFIndent_tail {e : VAIndent} {l : List VAIndent}
    (h : WFIndent (e :: l)) : WFIndent l :=
  fun x hx => h x (List.mem_cons_of_mem _ hx)

theorem WFIndent_drop {l : List VAIndent} (t : Nat) (h : WFIndent l) :
    WFIndent (l.drop t) :=
  fun x hx => h x (List.mem_of_mem_drop hx)

theorem commentRun_le_sectionRun (l : List VAIndent) :
    commentRun l ≤ sectionRun l := by
  induction l with
  | nil => simp [commentRun, sectionRun]
  | cons e rest ih =>
    by_cases h : e.token = VAToken.Comment
    · rw [commentRun, if_pos h, sectionRun, if_neg (by rw [h]; intro hh; cases hh)]
      omega
    · rw [commentRun, if_neg h]; omega

theorem instrRun_le_sectionRun (l : List VAIndent) :
    instrRun l ≤ sectionRun l := by
  induction l with
  | nil => simp [instrRun, sectionRun]
  | cons e rest ih =>
    by_cases h : e.token = VAToken.Instruction
    · rw [instrRun, if_pos h, sectionRun, if_neg (by rw [h]; intro hh; cases hh)]
      omega
    · rw [instrRun, if_neg h]; omega

theorem opRun_le_sectionRun (d : Nat) (l : List VAIndent) :
    opRun d l ≤ sectionRun l := by
  induction l with
  | nil => simp [opRun, sectionRun]
  | cons e rest ih =>
    obtain ⟨tok, ind⟩ := e
    cases tok with
    | Empty =>
      simp only [opRun, sectionRun]
      rw [if_neg (by simp : ¬(VAToken.Empty = VAToken.Section))]
      split <;> omega
    | Section =>
      simp only [opRun, sectionRun]
      simp
    | Operator =>
      simp only [opRun, sectionRun]
      rw [if_neg (by simp : ¬(VAToken.Operator = VAToken.Section))]
      split <;> omega
    | Comment =>
      simp only [opRun, sectionRun]
      rw [if_neg (by simp : ¬(VAToken.Comment = VAToken.Section))]
      omega
    | Multiline =>
      simp only [opRun, sectionRun]
      rw [if_neg (by simp : ¬(VAToken.Multiline = VAToken.Section))]
      omega
    | Instruction =>
      simp only [opRun, sectionRun]
      rw [if_neg (by simp : ¬(VAToken.Instruction = VAToken.Section))]
      split <;> omega
    | Parameter =>
      simp only [opRun, sectionRun]
      rw [if_neg (by simp : ¬(VAToken.Parameter = VAToken.Section))]
      omega

theorem commentRun_le_opRun (d : Nat) (l : List VAIndent) :
    commentRun l ≤ opRun d l := by
  induction l with
  | nil => simp [commentRun, opRun]
  | cons e rest ih =>
    obtain ⟨tok, ind⟩ := e
    cases tok with
    | Comment => simp only [commentRun, opRun]; simp; exact ih
    | Empty =>
      simp only [commentRun, opRun]
      rw [if_neg (by simp : ¬(VAToken.Empty = VAToken.Comment))]
      omega
    | Section =>
      simp only [commentRun, opRun]
      rw [if_neg (by simp : ¬(VAToken.Section = VAToken.Comment))]
    | Operator =>
      simp only [commentRun, opRun]
      rw [if_neg (by simp : ¬(VAToken.Operator = VAToken.Comment))]
      omega
    | Multiline =>
      simp only [commentRun, opRun]
      rw [if_neg (by simp : ¬(VAToken.Multiline = VAToken.Comment))]
      omega
    | Instruction =>
      simp only [commentRun, opRun]
      rw [if_neg (by simp : ¬(VAToken.Instruction = VAToken.Comment))]
      omega
    | Parameter =>
      simp only [commentRun, opRun]
      rw [if_neg (by simp : ¬(VAToken.Parameter = VAToken.Comment))]
      omega

theorem opRun_antitone {d d' : Nat} (hd : d ≤ d') (l : List VAIndent) :
    opRun d' l ≤ opRun d l := by
  induction l with
  | nil => simp [opRun]
  | cons e rest ih =>
    obtain ⟨tok, ind⟩ := e
    cases tok with
    | Empty => simp only [opRun]; split <;> split <;> omega
    | Section => simp only [opRun]; omega
    | Comment => simp only [opRun]; omega
    | Multiline => simp only [opRun]; omega
    | Parameter => simp only [opRun]; omega
    | Operator =>
      simp only [opRun]
      by_cases h1 : ind ≤ d
      · rw [if_pos h1, if_pos (le_trans h1 hd)]
      · by_cases h2 : ind ≤ d'
        · rw [if_pos h2, if_neg h1]; omega
        · rw [if_neg h2, if_neg h1]; omega
    | Instruction =>
      simp only [opRun]
      by_cases h1 : ind ≤ d
      · rw [if_pos h1, if_pos (le_trans h1 hd)]
      · by_cases h2 : ind ≤ d'
        · rw [if_pos h2, if_neg h1]; omega
        · rw [if_neg h2, if_neg h1]; omega

theorem sectionRun_cons_pos {e : VAIndent} {rest : List VAIndent} {m : Nat}
    (h : sectionRun (e :: rest) = m) (hm : 1 ≤ m) :
    e.token ≠ VAToken.Section ∧ sectionRun rest = m - 1 := by
  rw [sectionRun] at h
  by_cases hs : e.token = VAToken.Section
  · rw [if_pos hs] at h; omega
  · rw [if_neg hs] at h; exact ⟨hs, by omega⟩

theorem sectionRun_drop {l : List VAIndent} {t : Nat}
    (ht : t ≤ sectionRun l) : sectionRun (l.drop t) = sectionRun l - t := by
  induction t generalizing l with
  | zero => simp
  | succ n ih =>
    cases l with
    | nil => simp [sectionRun] at ht ⊢
    | cons e rest =>
      have h := sectionRun_cons_pos (rfl : sectionRun (e :: rest) = _)
        (by omega)
      have hrw : sectionRun (e :: rest) = sectionRun rest + 1 := by
        rw [sectionRun, if_neg h.1]
      rw [List.drop_succ_cons, ih (by omega : n ≤ sectionRun rest), hrw]
      omega

theorem opRun_cons_pos {d : Nat} {e : VAIndent} {rest : List VAIndent}
    (h : 1 ≤ opRun d (e :: rest)) :
    opRun d rest = opRun d (e :: rest) - 1 := by
  obtain ⟨tok, ind⟩ := e
  cases tok with
  | Empty =>
    simp only [opRun] at h ⊢
    by_cases hr : opRun d rest = 0
    · rw [if_pos hr] at h; omega
    · rw [if_neg hr] at h ⊢; omega
  | Section => simp only [opRun] at h; omega
  | Comment => simp only [opRun]; omega
  | Multiline => simp only [opRun]; omega
  | Parameter => simp only [opRun]; omega
  | Operator =>
    simp only [opRun] at h ⊢
    by_cases hr : ind ≤ d
    · rw [if_pos hr] at h; omega
    · rw [if_neg hr] at h ⊢; omega
  | Instruction =>
    simp only [opRun] at h ⊢
    by_cases hr : ind ≤ d
    · rw [if_pos hr] at h; omega
    · rw [if_neg hr] at h ⊢; omega

theorem opRun_drop {d : Nat} {l : List VAIndent} {t : Nat}
    (ht : t ≤ opRun d l) : opRun d (l.drop t) = opRun d l - t := by
  induction t generalizing l with
  | zero => simp
  | succ n ih =>
    cases l with
    | nil => simp [opRun] at ht ⊢
    | cons e rest =>
      have h := @opRun_cons_pos d e rest (by omega)
      rw [List.drop_succ_cons, ih (by omega : n ≤ opRun d rest)]
      omega

theorem foldScan_start_ge (fuel : Nat) :
    ∀ (i : Nat) (ls : List VAIndent) (rg : FoldRange),
      rg ∈ foldScan fuel i ls → i ≤ rg.start := by
  induction fuel with
  | zero => intro i ls rg h; simp [foldScan] at h
  | succ n ih =>
    intro i ls rg h
    cases ls with
    | nil => simp [foldScan] at h
    | cons e rest =>
      obtain ⟨tok, ind⟩ := e
      cases tok with
      | Instruction =>
        simp only [foldScan] at h
        by_cases hr : 0 < instrRun rest
        · rw [if_pos hr] at h
          rcases List.mem_cons.mp h with h | h
          · subst h; exact le_refl _
          · have := ih _ _ _ h; omega
        · rw [if_neg hr] at h
          have := ih _ _ _ h; omega
      | Comment =>
        simp only [foldScan] at h
        by_cases hr : 0 < commentRun rest
        · rw [if_pos hr] at h
          rcases List.mem_cons.mp h with h | h
          · subst h; exact le_refl _
          · have := ih _ _ _ h; omega
        · rw [if_neg hr] at h
          have := ih _ _ _ h; omega
      | Section =>
        simp only [foldScan] at h
        by_cases hr : 0 < sectionRun rest
        · rw [if_pos hr] at h
          rcases List.mem_cons.mp h with h | h
          · subst h; exact le_refl _
          · have := ih _ _ _ h; omega
        · rw [if_neg hr] at h
          have := ih _ _ _ h; omega
      | Operator =>
        simp only [foldScan] at h
        by_cases hr : 0 < opRun ind rest
        · rw [if_pos hr] at h
          rcases List.mem_cons.mp h with h | h
          · subst h; exact le_refl _
          · have := ih _ _ _ h; omega
        · rw [if_neg hr] at h
          have := ih _ _ _ h; omega
      | Empty => simp only [foldScan] at h; have := ih _ _ _ h; omega
      | Multiline => simp only [foldScan] at h; have := ih _ _ _ h; omega
      | Parameter => simp only [foldScan] at h; have := ih _ _ _ h; omega

theorem foldScan_start_lt_stop (fuel : Nat) :
    ∀ (i : Nat) (ls : List VAIndent) (rg : FoldRange),
      rg ∈ foldScan fuel i ls → rg.start < rg.stop := by
  induction fuel with
  | zero => intro i ls rg h; simp [foldScan] at h
  | succ n ih =>
    intro i ls rg h
    cases ls with
    | nil => simp [foldScan] at h
    | cons e rest =>
      obtain ⟨tok, ind⟩ := e
      cases tok with
      | Instruction =>
        simp only [foldScan] at h
        by_cases hr : 0 < instrRun rest
        · rw [if_pos hr] at h
          rcases List.mem_cons.mp h with h | h
          · subst h; show i < i + instrRun rest; omega
          · exact ih _ _ _ h
        · rw [if_neg hr] at h; exact ih _ _ _ h
      | Comment =>
        simp only [foldScan] at h
        by_cases hr : 0 < commentRun rest
        · rw [if_pos hr] at h
          rcases List.mem_cons.mp h with h | h
          · subst h; show i < i + commentRun rest; omega
          · exact ih _ _ _ h
        · rw [if_neg hr] at h; exact ih _ _ _ h
      | Section =>
        simp only [foldScan] at h
        by_cases hr : 0 < sectionRun rest
        · rw [if_pos hr] at h
          rcases List.mem_cons.mp h with h | h
          · subst h; show i < i + sectionRun rest; omega
          · exact ih _ _ _ h
        · rw [if_neg hr] at h; exact ih _ _ _ h
      | Operator =>
        simp only [foldScan] at h
        by_cases hr : 0 < opRun ind rest
        · rw [if_pos hr] at h
          rcases List.mem_cons.mp h with h | h
          · subst h; show i < i + opRun ind rest; omega
          · exact ih _ _ _ h
        · rw [if_neg hr] at h; exact ih _ _ _ h
      | Empty => simp only [foldScan] at h; exact ih _ _ _ h
      | Multiline => simp only [foldScan] at h; exact ih _ _ _ h
      | Parameter => simp only [foldScan] at h; exact ih _ _ _ h

theorem foldScan_kind (fuel : Nat) :
    ∀ (i : Nat) (ls : List VAIndent) (rg : FoldRange),
      rg ∈ foldScan fuel i ls →
      rg.kind = none ∨ rg.kind = some FoldKind.Comment ∨
        rg.kind = some FoldKind.Region := by
  induction fuel with
  | zero => intro i ls rg h; simp [foldScan] at h
  | succ n ih =>
    intro i ls rg h
    cases ls with
    | nil => simp [foldScan] at h
    | cons e rest =>
      obtain ⟨tok, ind⟩ := e
      cases tok with
      | Instruction =>
        simp only [foldScan] at h
        by_cases hr : 0 < instrRun rest
        · rw [if_pos hr] at h
          rcases List.mem_cons.mp h with h | h
          · subst h; exact Or.inl rfl
          · exact ih _ _ _ h
        · rw [if_neg hr] at h; exact ih _ _ _ h
      | Comment =>
        simp only [foldScan] at h
        by_cases hr : 0 < commentRun rest
        · rw [if_pos hr] at h
          rcases List.mem_cons.mp h with h | h
          · subst h; exact Or.inr (Or.inl rfl)
          · exact ih _ _ _ h
        · rw [if_neg hr] at h; exact ih _ _ _ h
      | Section =>
        simp only [foldScan] at h
        by_cases hr : 0 < sectionRun rest
        · rw [if_pos hr] at h
          rcases List.mem_cons.mp h with h | h
          · subst h; exact Or.inr (Or.inr rfl)
          · exact ih _ _ _ h
        · rw [if_neg hr] at h; exact ih _ _ _ h
      | Operator =>
        simp only [foldScan] at h
        by_cases hr : 0 < opRun ind rest
        · rw [if_pos hr] at h
          rcases List.mem_cons.mp h with h | h
          · subst h; exact Or.inl rfl
          · exact ih _ _ _ h
        · rw [if_neg hr] at h; exact ih _ _ _ h
      | Empty => simp only [foldScan] at h; exact ih _ _ _ h
      | Multiline => simp only [foldScan] at h; exact ih _ _ _ h
      | Parameter => simp only [foldScan] at h; exact ih _ _ _ h

/-- Every fold emitted inside the body of a Region fold (bounded by the
next section line) ends inside it: a range emitted by the scan from
position `j` over a list whose next Section line is `m` lines away
either starts at `j + m` or later, or stops before line `j + m`. -/
theorem foldScan_bound_section (fuel : Nat) :
    ∀ (j m : Nat) (ls : List VAIndent), sectionRun ls = m →
      ∀ rg ∈ foldScan fuel j ls, j + m ≤ rg.start ∨ rg.stop + 1 ≤ j + m := by
  induction fuel with
  | zero => intro j m ls hm rg h; simp [foldScan] at h
  | succ n ih =>
    intro j m ls hm rg h
    cases ls with
    | nil => simp [foldScan] at h
    | cons e rest =>
      obtain ⟨tok, ind⟩ := e
      by_cases hm0 : m = 0
      · subst hm0
        left
        have := foldScan_start_ge (n + 1) j (⟨tok, ind⟩ :: rest) rg h
        omega
      · have hdec := sectionRun_cons_pos hm (by omega)
        have htok : tok ≠ VAToken.Section := hdec.1
        have hrest : sectionRun rest = m - 1 := hdec.2
        cases tok with
        | Section => exact absurd rfl htok
        | Instruction =>
          have hrun : instrRun rest ≤ m - 1 :=
            hrest ▸ instrRun_le_sectionRun rest
          simp only [foldScan] at h
          by_cases hr : 0 < instrRun rest
          · rw [if_pos hr] at h
            rcases List.mem_cons.mp h with h | h
            · subst h; right; simp; omega
            · have hd : sectionRun (rest.drop (instrRun rest)) =
                  m - 1 - instrRun rest := by
                rw [sectionRun_drop (by omega), hrest]
              have := ih _ _ _ hd rg h
              omega
          · rw [if_neg hr] at h
            have hd : sectionRun (rest.drop (instrRun rest)) =
                m - 1 - instrRun rest := by
              rw [sectionRun_drop (by omega), hrest]
            have := ih _ _ _ hd rg h
            omega
        | Comment =>
          have hrun : commentRun rest ≤ m - 1 :=
            hrest ▸ commentRun_le_sectionRun rest
          simp only [foldScan] at h
          by_cases hr : 0 < commentRun rest
          · rw [if_pos hr] at h
            rcases List.mem_cons.mp h with h | h
            · subst h; right; simp; omega
            · have hd : sectionRun (rest.drop (commentRun rest)) =
                  m - 1 - commentRun rest := by
                rw [sectionRun_drop (by omega), hrest]
              have := ih _ _ _ hd rg h
              omega
          · rw [if_neg hr] at h
            have hd : sectionRun (rest.drop (commentRun rest)) =
                m - 1 - commentRun rest := by
              rw [sectionRun_drop (by omega), hrest]
            have := ih _ _ _ hd rg h
            omega
        | Operator =>
          have hrun : opRun ind rest ≤ m - 1 :=
            hrest ▸ opRun_le_sectionRun ind rest
          simp only [foldScan] at h
          by_cases hr : 0 < opRun ind rest
          · rw [if_pos hr] at h
            rcases List.mem_cons.mp h with h | h
            · subst h; right; simp; omega
            · have := ih _ _ _ hrest rg h
              omega
          · rw [if_neg hr] at h
            have := ih _ _ _ hrest rg h
            omega
        | Empty =>
          simp only [foldScan] at h
          have := ih _ _ _ hrest rg h
          omega
        | Multiline =>
          simp only [foldScan] at h
          have := ih _ _ _ hrest rg h
          omega
        | Parameter =>
          simp only [foldScan] at h
          have := ih _ _ _ hrest rg h
          omega

/-- Every fold emitted inside the body of an Operator fold ends inside
it.  Needs well-formed indents: Instruction lines (indent 0) always
break the operator scan, so no Instruction block can straddle its
end. -/
theorem foldScan_bound_op (fuel : Nat) :
    ∀ (j d r : Nat) (ls : List VAIndent), WFIndent ls → opRun d ls = r →
      ∀ rg ∈ foldScan fuel j ls, j + r ≤ rg.start ∨ rg.stop + 1 ≤ j + r := by
  induction fuel with
  | zero => intro j d r ls hwf hr rg h; simp [foldScan] at h
  | succ n ih =>
    intro j d r ls hwf hr rg h
    cases ls with
    | nil => simp [foldScan] at h
    | cons e rest =>
      obtain ⟨tok, ind⟩ := e
      have hwfr : WFIndent rest := WFIndent_tail hwf
      by_cases hr0 : r = 0
      · subst hr0
        left
        have := foldScan_start_ge (n + 1) j (⟨tok, ind⟩ :: rest) rg h
        omega
      · have hpos : 1 ≤ opRun d (⟨tok, ind⟩ :: rest) := by omega
        have hrest : opRun d rest = r - 1 := by
          have := opRun_cons_pos hpos
          omega
        cases tok with
        | Section =>
          rw [opRun] at hr
          simp at hr
          omega
        | Empty =>
          simp only [foldScan] at h
          have := ih _ d _ _ hwfr hrest rg h
          omega
        | Multiline =>
          simp only [foldScan] at h
          have := ih _ d _ _ hwfr hrest rg h
          omega
        | Parameter =>
          simp only [foldScan] at h
          have := ih _ d _ _ hwfr hrest rg h
          omega
        | Instruction =>
          exfalso
          have hind : ind = 0 := by
            have := hwf ⟨VAToken.Instruction, ind⟩ (List.mem_cons_self _ _)
            exact this.2 (by simp)
          rw [opRun] at hr
          simp only [hind] at hr
          rw [if_pos (by omega : (0:Nat) ≤ d)] at hr
          omega
        | Comment =>
          have hrun : commentRun rest ≤ r - 1 :=
            hrest ▸ commentRun_le_opRun d rest
          simp only [foldScan] at h
          by_cases hcr : 0 < commentRun rest
          · rw [if_pos hcr] at h
            rcases List.mem_cons.mp h with h | h
            · subst h; right; simp; omega
            · have hd : opRun d (rest.drop (commentRun rest)) =
                  r - 1 - commentRun rest := by
                rw [opRun_drop (by omega), hrest]
              have := ih _ d _ _ (WFIndent_drop _ hwfr) hd rg h
              omega
          · rw [if_neg hcr] at h
            have hd : opRun d (rest.drop (commentRun rest)) =
                r - 1 - commentRun rest := by
              rw [opRun_drop (by omega), hrest]
            have := ih _ d _ _ (WFIndent_drop _ hwfr) hd rg h
            omega
        | Operator =>
          have hgt : ¬(ind ≤ d) := by
            intro hle
            rw [opRun] at hr
            simp only [] at hr
            rw [if_pos hle] at hr
            omega
          have hrun : opRun ind rest ≤ r - 1 := by
            calc opRun ind rest ≤ opRun d rest := opRun_antitone (by omega) rest
              _ = r - 1 := hrest
          simp only [foldScan] at h
          by_cases hor : 0 < opRun ind rest
          · rw [if_pos hor] at h
            rcases List.mem_cons.mp h with h | h
            · subst h; right; simp; omega
            · have := ih _ d _ _ hwfr hrest rg h
              omega
          · rw [if_neg hor] at h
            have := ih _ d _ _ hwfr hrest rg h
            omega

/-- The scan emits ranges that pairwise never partially overlap. -/
theorem foldScan_pairwise (fuel : Nat) :
    ∀ (j : Nat) (ls : List VAIndent), WFIndent ls →
      (foldScan fuel j ls).Pairwise RangeOrder := by
  induction fuel with
  | zero => intro j ls hwf; simp [foldScan]
  | succ n ih =>
    intro j ls hwf
    cases ls with
    | nil => simp [foldScan]
    | cons e rest =>
      obtain ⟨tok, ind⟩ := e
      have hwfr : WFIndent rest := WFIndent_tail hwf
      cases tok with
      | Instruction =>
        simp only [foldScan]
        by_cases hr : 0 < instrRun rest
        · rw [if_pos hr]
          refine List.pairwise_cons.mpr ⟨?_, ih _ _ (WFIndent_drop _ hwfr)⟩
          intro b hb
          have := foldScan_start_ge n _ _ b hb
          exact ⟨by simp; omega, Or.inl (by simp; omega)⟩
        · rw [if_neg hr]
          exact ih _ _ (WFIndent_drop _ hwfr)
      | Comment =>
        simp only [foldScan]
        by_cases hr : 0 < commentRun rest
        · rw [if_pos hr]
          refine List.pairwise_cons.mpr ⟨?_, ih _ _ (WFIndent_drop _ hwfr)⟩
          intro b hb
          have := foldScan_start_ge n _ _ b hb
          exact ⟨by simp; omega, Or.inl (by simp; omega)⟩
        · rw [if_neg hr]
          exact ih _ _ (WFIndent_drop _ hwfr)
      | Section =>
        simp only [foldScan]
        by_cases hr : 0 < sectionRun rest
        · rw [if_pos hr]
          refine List.pairwise_cons.mpr ⟨?_, ih _ _ hwfr⟩
          intro b hb
          have hstart := foldScan_start_ge n _ _ b hb
          have hbd := foldScan_bound_section n (j + 1) (sectionRun rest) rest
            rfl b hb
          refine ⟨by simp; omega, ?_⟩
          rcases hbd with hbd | hbd
          · exact Or.inl (by simp; omega)
          · exact Or.inr (by simp; omega)
        · rw [if_neg hr]
          exact ih _ _ hwfr
      | Operator =>
        simp only [foldScan]
        by_cases hr : 0 < opRun ind rest
        · rw [if_pos hr]
          refine List.pairwise_cons.mpr ⟨?_, ih _ _ hwfr⟩
          intro b hb
          have hstart := foldScan_start_ge n _ _ b hb
          have hbd := foldScan_bound_op n (j + 1) ind (opRun ind rest) rest
            hwfr rfl b hb
          refine ⟨by simp; omega, ?_⟩
          rcases hbd with hbd | hbd
          · exact Or.inl (by simp; omega)
          · exact Or.inr (by simp; omega)
        · rw [if_neg hr]
          exact ih _ _ hwfr
      | Empty => simp only [foldScan]; exact ih _ _ hwfr
      | Multiline => simp only [foldScan]; exact ih _ _ hwfr
      | Parameter => simp only [foldScan]; exact ih _ _ hwfr

/-- C5 counterexample: on the three-line document `a` / ` b` / `  c`
(with a section matcher that matches nothing), the folding engine
returns the ranges `[1,3]` and `[2,3]`, which overlap as line
intervals — both contain lines 2 and 3 (they are nested, which the
folding design produces on purpose). -/
theorem getCodeFolding_ranges_can_overlap :
    getCodeFolding (fun _ => false) 4 ["a", " b", "  c"] =
      [⟨none, 1, 3⟩, ⟨none, 2, 3⟩] ∧
    ¬ (∀ r1 ∈ getCodeFolding (fun _ => false) 4 ["a", " b", "  c"],
        ∀ r2 ∈ getCodeFolding (fun _ => false) 4 ["a", " b", "  c"],
        r1 ≠ r2 → r1.stop < r2.start ∨ r2.stop < r1.start) := by
  constructor
  · rfl
  · intro h
    have := h ⟨none, 1, 3⟩ (by rw [(by rfl : getCodeFolding (fun _ => false) 4
        ["a", " b", "  c"] = [⟨none, 1, 3⟩, ⟨none, 2, 3⟩])]; simp)
      ⟨none, 2, 3⟩ (by rw [(by rfl : getCodeFolding (fun _ => false) 4
        ["a", " b", "  c"] = [⟨none, 1, 3⟩, ⟨none, 2, 3⟩])]; simp)
      (by simp)
    simp at this

/-- C5 (amended): every range returned by the folding engine satisfies
`start < end` and carries kind none, Comment or Region, and no two
returned ranges partially overlap: in emission order, any later range
either starts after the earlier one stops or is nested inside it. -/
theorem getCodeFolding_invariants (isSection : String → Bool) (tabSize : Nat)
    (doc : List String) :
    (∀ rg ∈ getCodeFolding isSection tabSize doc,
      rg.start < rg.stop ∧
      (rg.kind = none ∨ rg.kind = some FoldKind.Comment ∨
        rg.kind = some FoldKind.Region)) ∧
    (getCodeFolding isSection tabSize doc).Pairwise RangeOrder := by
  unfold getCodeFolding
  refine ⟨fun rg hrg => ⟨?_, ?_⟩, ?_⟩
  · exact foldScan_start_lt_stop _ _ _ rg hrg
  · exact foldScan_kind _ _ _ rg hrg
  · exact foldScan_pairwise _ _ _
      (classifyLines_wf isSection tabSize doc false)

/-- C1: the code violates the claim.  After `setKeywords` registered
`["when", "when not"]`, a malformed `setKeywords` payload makes the
call fail — but the keyword list has already been cleared, so a lookup
that found `["when"]` before the failed call finds nothing after it.
The claim demands the list stay untouched.  The second half of the
claim does hold: a subsequent valid `setStepList` call succeeds and
registers its step. -/
theorem setKeywords_clears_before_parse :
    (setKeywordsJS
      (setKeywordsJS ⟨[], [], []⟩ (some ["when", "when not"])).1 none).2
        = false ∧
    (setKeywordsJS ⟨[], [], []⟩ (some ["when", "when not"])).1.keywords
      = [["when", "not"], ["when"]] ∧
    (setKeywordsJS
      (setKeywordsJS ⟨[], [], []⟩ (some ["when", "when not"])).1
        none).1.keywords = [] ∧
    findKeyword
      (setKeywordsJS ⟨[], [], []⟩ (some ["when", "when not"])).1.keywords
      ["when", "x"] = some ["when"] ∧
    findKeyword
      (setKeywordsJS
        (setKeywordsJS ⟨[], [], []⟩ (some ["when", "when not"])).1
          none).1.keywords ["when", "x"] = none ∧
    (setStepListJS
      (setKeywordsJS
        (setKeywordsJS ⟨[], [], []⟩ (some ["when", "when not"])).1 none).1
      (some [{ insertText := "do it" }]) false).2 = true ∧
    alookup (setStepListJS
      (setKeywordsJS
        (setKeywordsJS ⟨[], [], []⟩ (some ["when", "when not"])).1 none).1
      (some [{ insertText := "do it" }]) false).1.steps "do it" ≠ none := by
  refine ⟨rfl, rfl, rfl, rfl, rfl, rfl, ?_⟩
  decide

theorem alookup_map_overwrite_ne {α : Type} (l : List (String × α))
    (k k' : String) (v : α) (hne : k' ≠ k) :
    alookup (l.map (fun q => if q.1 == k then (k, v) else q)) k' =
      alookup l k' := by
  induction l with
  | nil => rfl
  | cons p rest ih =>
    by_cases hp : p.1 == k
    · have hpk : p.1 = k := by simpa using hp
      simp only [List.map_cons, if_pos hp]
      rw [alookup, alookup,
        List.find?_cons_of_neg _ (by simpa using Ne.symm hne),
        List.find?_cons_of_neg _ (by simp [hpk]; exact fun h => hne h.symm)]
      exact ih
    · simp only [List.map_cons, if_neg hp]
      rw [alookup, alookup]
      by_cases hk' : p.1 == k'
      · rw [List.find?_cons_of_pos _ (by simpa using hk'),
          List.find?_cons_of_pos _ (by simpa using hk')]
      · rw [List.find?_cons_of_neg _ (by simpa using hk'),
          List.find?_cons_of_neg _ (by simpa using hk')]
        exact ih

theorem alookup_map_overwrite_eq {α : Type} (l : List (String × α))
    (k : String) (v : α) (hany : l.any (fun p => p.1 == k)) :
    alookup (l.map (fun q => if q.1 == k then (k, v) else q)) k = some v := by
  induction l with
  | nil => simp at hany
  | cons p rest ih =>
    by_cases hp : p.1 == k
    · simp only [List.map_cons, if_pos hp]
      rw [alookup, List.find?_cons_of_pos _ (by simp)]
      rfl
    · simp only [List.map_cons, if_neg hp]
      rw [alookup, List.find?_cons_of_neg _ (by simpa using hp)]
      rw [List.any_cons] at hany
      exact ih (by simpa [hp] using hany)

theorem alookup_append_missing {α : Type} (l : List (String × α))
    (k : String) (v : α) (hnone : ¬ l.any (fun p => p.1 == k)) :
    alookup (l ++ [(k, v)]) k = some v := by
  induction l with
  | nil =>
    rw [List.nil_append, alookup, List.find?_cons_of_pos _ (by simp)]
    rfl
  | cons p rest ih =>
    rw [List.any_cons] at hnone
    have hp : ¬(p.1 == k) := fun h => hnone (by simp [h])
    rw [List.cons_append, alookup, List.find?_cons_of_neg _ (by simpa using hp)]
    exact ih (fun h => hnone (by simp [h]))

theorem alookup_append_single_ne {α : Type} (l : List (String × α))
    (k k' : String) (v : α) (hne : k' ≠ k) :
    alookup (l ++ [(k, v)]) k' = alookup l k' := by
  induction l with
  | nil =>
    rw [List.nil_append, alookup,
      List.find?_cons_of_neg _ (by simpa using Ne.symm hne)]
    rfl
  | cons p rest ih =>
    rw [List.cons_append, alookup, alookup]
    by_cases hp : p.1 == k'
    · rw [List.find?_cons_of_pos _ (by simpa using hp),
        List.find?_cons_of_pos _ (by simpa using hp)]
    · rw [List.find?_cons_of_neg _ (by simpa using hp),
        List.find?_cons_of_neg _ (by simpa using hp)]
      exact ih

/-- Lookup after assignment: the assigned key now maps to the new
value, all other keys are untouched. -/
theorem alookup_aset {α : Type} (l : List (String × α)) (k k' : String)
    (v : α) :
    alookup (aset l k v) k' = if k' = k then some v else alookup l k' := by
  unfold aset
  by_cases hany : l.any (fun p => p.1 == k)
  · rw [if_pos hany]
    by_cases hk : k' = k
    · subst hk; rw [if_pos rfl]; exact alookup_map_overwrite_eq l k' v hany
    · rw [if_neg hk]; exact alookup_map_overwrite_ne l k k' v hk
  · rw [if_neg hany]
    by_cases hk : k' = k
    · subst hk; rw [if_pos rfl]; exact alookup_append_missing l k' v hany
    · rw [if_neg hk]; exact alookup_append_single_ne l k k' v hk

theorem setVariables_foldl_lookup (payload : List (String × JVal))
    (base : List (String × VarItem)) (key : String) :
    alookup (payload.foldl (fun acc p =>
      aset acc (jsToLower p.1) ⟨p.1, jsString p.2⟩) base) key =
    match lastVarAssign payload key with
    | some v => some v
    | none => alookup base key := by
  induction payload generalizing base with
  | nil => rfl
  | cons p rest ih =>
    rw [List.foldl_cons, ih, lastVarAssign]
    cases lastVarAssign rest key with
    | some v => rfl
    | none =>
      simp only []
      rw [alookup_aset]
      by_cases hk : key = jsToLower p.1
      · rw [if_pos hk, if_pos hk.symm]
      · rw [if_neg hk, if_neg (fun h => hk h.symm)]

/-- C8 counterexample: the claim says the completion operation offers
nothing (no suggestions) when the cursor precedes the line's last
non-whitespace column outside a placeholder, but the source returns
`this.empty(position)` — a list with exactly one blank suggestion, not
an empty list.  Concretely: line `ab cd`, cursor column 2. -/
theorem completion_mid_token_not_empty :
    wordRangeAt "ab cd" 2 = none ∧
    (2 : Nat) < lastNonWsColumn "ab cd" ∧
    provideCompletionItems emptyProviderStore "ab cd" 2 =
      emptyCompletion 2 ∧
    provideCompletionItems emptyProviderStore "ab cd" 2 ≠ [] := by
  refine ⟨rfl, by decide, rfl, ?_⟩
  intro h
  have h2 : emptyCompletion 2 = ([] : List CompletionItem) := h
  simp [emptyCompletion] at h2

/-- C8 (amended): when the cursor is not inside a quoted or
angle-bracket placeholder token and its column strictly precedes the
line's last non-whitespace column, completion returns exactly the
single blank suggestion of `empty(position)` (empty label, empty insert
text) — suppressing all step, keyword and variable suggestions, but not
an empty suggestion list. -/
theorem completion_mid_token_blank (σ : ProviderStore) (line : String)
    (column : Nat) (h1 : wordRangeAt line column = none)
    (h2 : lastNonWsColumn line ≠ 0) (h3 : column < lastNonWsColumn line) :
    provideCompletionItems σ line column = emptyCompletion column := by
  unfold provideCompletionItems
  rw [h1]
  simp only []
  rw [if_pos ⟨h2, h3⟩]

/-- C8 witness: the amended theorem applied to line `ab cd`, column 2,
over the empty store. -/
theorem completion_mid_token_blank_witness :
    provideCompletionItems emptyProviderStore "ab cd" 2 =
      emptyCompletion 2 :=
  completion_mid_token_blank emptyProviderStore "ab cd" 2 rfl
    (by decide) (by decide)

/-- C10: `setVariables` stores each name under its lowercased key as
`{name, String(value)}` (the general clause, with later duplicate
lowercased names overwriting earlier ones); hover looks placeholders up
by lowercased content, so the line `do "USERNAME"` shows
`**UserName** = 42` although the variable was registered as `UserName`;
and the variable-completion branch shows every stored variable with its
stringified value. -/
theorem setVariables_lower_stringified :
    (∀ (prior : List (String × VarItem)) (payload : List (String × JVal))
       (clear : Bool) (N : String) (V : JVal),
       lastVarAssign payload (jsToLower N) = some ⟨N, jsString V⟩ →
       alookup (setVariables prior payload clear) (jsToLower N) =
         some ⟨N, jsString V⟩) ∧
    (provideHover c10Store "do \"USERNAME\"" 1).length = 3 ∧
    (provideHover c10Store "do \"USERNAME\"" 1).getD 2 "" =
      "**UserName** = 42" ∧
    (provideCompletionItems c10Store "do \"US\"" 5).map
      (fun i => i.label) = ["\"UserName\" = 42"] := by
  refine ⟨?_, rfl, rfl, rfl⟩
  intro prior payload clear N V hlast
  unfold setVariables
  rw [setVariables_foldl_lookup, hlast]

/-- C10 witness: the general clause applied to the concrete payload
`{"UserName": 42}` — the store maps `username` to
`{name := "UserName", value := "42"}`. -/
theorem setVariables_lower_stringified_witness :
    alookup (setVariables [] [("UserName", JVal.num 42)] false)
      (jsToLower "UserName") =
      some ⟨"UserName", jsString (JVal.num 42)⟩ :=
  setVariables_lower_stringified.1 [] [("UserName", JVal.num 42)] false
    "UserName" (JVal.num 42) rfl

theorem mem_insertBySumDesc {c x : QFCandidate} {l : List QFCandidate} :
    x ∈ insertBySumDesc c l ↔ x = c ∨ x ∈ l := by
  induction l with
  | nil => simp [insertBySumDesc]
  | cons a as ih =>
    by_cases h : c.sum ≤ a.sum
    · simp only [insertBySumDesc, if_pos h, List.mem_cons, ih]
      tauto
    · simp only [insertBySumDesc, if_neg h, List.mem_cons]

theorem mem_sortBySumDesc {x : QFCandidate} {l : List QFCandidate} :
    x ∈ sortBySumDesc l ↔ x ∈ l := by
  induction l with
  | nil => simp [sortBySumDesc]
  | cons a as ih =>
    simp only [sortBySumDesc, List.foldr] at *
    rw [mem_insertBySumDesc, ih]
    simp

theorem sumSorted_insert {c : QFCandidate} {l : List QFCandidate}
    (h : SumSorted l) : SumSorted (insertBySumDesc c l) := by
  induction l with
  | nil => simp [insertBySumDesc, SumSorted]
  | cons a as ih =>
    rcases List.pairwise_cons.mp h with ⟨ha, has⟩
    by_cases hc : c.sum ≤ a.sum
    · rw [insertBySumDesc, if_pos hc]
      refine List.pairwise_cons.mpr ⟨?_, ih has⟩
      intro b hb
      rcases mem_insertBySumDesc.mp hb with hb | hb
      · subst hb; exact hc
      · exact ha b hb
    · rw [insertBySumDesc, if_neg hc]
      refine List.pairwise_cons.mpr ⟨?_, h⟩
      intro b hb
      rcases List.mem_cons.mp hb with hb | hb
      · subst hb; linarith
      · exact le_trans (ha b hb) (by linarith)

theorem sumSorted_sortBySumDesc (l : List QFCandidate) :
    SumSorted (sortBySumDesc l) := by
  induction l with
  | nil => simp [sortBySumDesc, SumSorted]
  | cons a as ih => exact sumSorted_insert ih

/-- The two invariants of the accumulated list: sorted by
non-increasing score and every entry scored above `0.7`. -/
theorem quickFixList_invariant (score : String → String → ℚ)
    (keywords : List (List String)) (steps : List (String × StepData))
    (doc : List String) (markers : List QFMarker) :
    SumSorted (quickFixList score keywords steps doc markers) ∧
    ∀ c ∈ quickFixList score keywords steps doc markers,
      mkRat 7 10 < c.sum := by
  unfold quickFixList
  suffices h : ∀ (acc : List QFCandidate), SumSorted acc →
      (∀ c ∈ acc, mkRat 7 10 < c.sum) →
      SumSorted (markers.foldl (addQuickFix score keywords steps doc) acc) ∧
      ∀ c ∈ markers.foldl (addQuickFix score keywords steps doc) acc,
        mkRat 7 10 < c.sum by
    exact h [] (by simp [SumSorted]) (by simp)
  induction markers with
  | nil => intro acc h1 h2; exact ⟨h1, h2⟩
  | cons m rest ih =>
    intro acc h1 h2
    rw [List.foldl_cons]
    refine ih _ ?_ ?_
    · unfold addQuickFix
      cases findKeyword keywords (splitWords (qfValue doc m)) with
      | none => exact h1
      | some kw => exact sumSorted_sortBySumDesc _
    · unfold addQuickFix
      cases hk : findKeyword keywords (splitWords (qfValue doc m)) with
      | none => exact h2
      | some kw =>
        intro c hc
        rcases List.mem_append.mp (mem_sortBySumDesc.mp hc) with hc | hc
        · exact h2 c hc
        · rcases List.mem_filterMap.mp hc with ⟨p, -, hp⟩
          by_cases hs : mkRat 7 10 < score (keyOf (filterWords keywords
              (splitWords (qfValue doc m)))) p.1
          · rw [if_pos hs] at hp
            injection hp with hp
            subst hp
            exact hs
          · rw [if_neg hs] at hp
            cases hp

/-- C3 (amended): the quick-fix operation emits at most 7 actions, all
marked preferred; only candidates scoring strictly above 0.7 are kept;
the accumulated candidate list is ordered by non-increasing (not
necessarily strictly decreasing) similarity score; and the actions are
exactly the first seven candidates in that order. -/
theorem getQuickFix_invariants (score : String → String → ℚ)
    (keywords : List (List String)) (steps : List (String × StepData))
    (doc : List String) (markers : List QFMarker) :
    (getQuickFix score keywords steps doc markers).length ≤ 7 ∧
    (∀ a ∈ getQuickFix score keywords steps doc markers,
      a.isPreferred = true) ∧
    (∀ c ∈ quickFixList score keywords steps doc markers,
      mkRat 7 10 < c.sum) ∧
    SumSorted (quickFixList score keywords steps doc markers) ∧
    getQuickFix score keywords steps doc markers =
      ((quickFixList score keywords steps doc markers).take 7).map
        (mkQuickFixAction keywords steps) := by
  obtain ⟨hs, hp⟩ := quickFixList_invariant score keywords steps doc markers
  refine ⟨?_, ?_, hp, hs, rfl⟩
  · unfold getQuickFix
    rw [List.length_map, List.length_take]
    omega
  · intro a ha
    unfold getQuickFix at ha
    rcases List.mem_map.mp ha with ⟨c, -, hc⟩
    subst hc
    rfl

/-- C3 counterexample: two identical diagnostics over the line `do y`
produce two candidates scoring the *same* pair of strings, so their
similarity scores tie (here with the score function constantly 1, as
Jaro-Winkler is on identical inputs), the emitted list is `[1, 1]`, and
it is not strictly decreasing — two actions are still emitted. -/
theorem quickfix_ties_not_strictly_ordered :
    (quickFixList (fun _ _ => (1 : ℚ)) cexKeywords cexSteps ["do y"]
      [⟨1, 1, 1, 5⟩, ⟨1, 1, 1, 5⟩]).map (fun c => c.sum) = [1, 1] ∧
    ¬ ((quickFixList (fun _ _ => (1 : ℚ)) cexKeywords cexSteps ["do y"]
      [⟨1, 1, 1, 5⟩, ⟨1, 1, 1, 5⟩]).map (fun c => c.sum)).Chain'
        (fun a b => b < a) ∧
    (getQuickFix (fun _ _ => (1 : ℚ)) cexKeywords cexSteps ["do y"]
      [⟨1, 1, 1, 5⟩, ⟨1, 1, 1, 5⟩]).length = 2 := by
  refine ⟨by decide, ?_, by decide⟩
  intro h
  have h11 : ([1, 1] : List ℚ).Chain' (fun a b => b < a) := by
    have heq : (quickFixList (fun _ _ => (1 : ℚ)) cexKeywords cexSteps
        ["do y"] [⟨1, 1, 1, 5⟩, ⟨1, 1, 1, 5⟩]).map (fun c => c.sum) =
        [1, 1] := by decide
    rw [heq] at h
    exact h
  rcases List.chain'_cons.mp h11 with ⟨h1, -⟩
  exact absurd h1 (by norm_num)

/-- C6: with the variables block containing `* Users`, the header row
`| id | name |` and the row `| 1 | Alice |`, the link-data lookup of
the dotted key `Users.1` returns the record with key `"1"`, name
`"Alice"` and data `{id: "1", name: "Alice"}` (decorated, as the source
does, with the table and the original parameter).  The matcher patterns
of the absent `matcher.ts` are instantiated so that `Vars:` opens the
variables block, `Scenario:` is a section line and no line is an import
directive. -/
theorem getLinkData_users_row :
    getLinkData (fun s => s == "Vars:") (fun s => s == "Scenario:")
      (fun _ => none) [] c6Doc "Users.1" =
      some { key := "1", name := "Alice",
             data := [("id", "1"), ("name", "Alice")],
             file := none, column := none, table := some "users",
             param := some "Users.1" } := by
  rfl

end VAEditor
